import Mathlib

/-!
# Verification of the concordance pattern-matching library

A shallow embedding, in Lean 4, of the core of the `concordance` /
`ndfa` Rust library: symbol ranges, the overlapping-range resolver
(`SymbolMap`), the NDFA with its link ("join") relation, pattern
compilation, the subset-construction DFA compiler, the range DFA with
its greedy match driver, and the tokenizer.

Symbols are modelled as `Int` (the library is generic over any ordered
countable symbol type; `Int` models the integer instances, whose
`Countable::next/prev` are `+1`/`-1`).  Output symbols are modelled as
`Nat` (the library requires only `Ord`).

Rust loops whose iteration count is not structurally evident are
embedded with an explicit fuel argument; for every loop that terminates
in the Rust source the fuel chosen at each call site is ample, and the
loop exits as soon as its real exit condition holds, so the fuelled
function agrees with the source.  The one loop in the source that can
genuinely fail to terminate (`SymbolMap::to_non_overlapping_map`)
is embedded as an `Option`-valued function, `none` meaning that the
iteration bound was exhausted.
-/

namespace Concordance

/-! ## Symbol ranges — `src/symbol_range.rs` -/

/-- `SymbolRange { lowest, highest }`: a closed interval of symbols. -/
structure SymbolRange where
  lowest : Int
  highest : Int
deriving DecidableEq, Repr

/-- `SymbolRange::new`: builds a range, swapping the two endpoints when
they are given in reversed order. -/
def SymbolRange.new (lowest highest : Int) : SymbolRange :=
  if lowest > highest then ⟨highest, lowest⟩ else ⟨lowest, highest⟩

/-- `SymbolRange::overlaps`. -/
def SymbolRange.overlaps (a b : SymbolRange) : Bool :=
  if a.highest < b.lowest then false
  else if a.lowest > b.highest then false
  else true

/-- `SymbolRange::includes`. -/
def SymbolRange.includes (r : SymbolRange) (symbol : Int) : Bool :=
  decide (r.lowest ≤ symbol ∧ symbol ≤ r.highest)

/-- `SymbolRange::join`. -/
def SymbolRange.join (a b : SymbolRange) : SymbolRange :=
  { lowest := if b.lowest < a.lowest then b.lowest else a.lowest
    highest := if b.highest < a.highest then a.highest else b.highest }

/-! ## The symbol map — `src/overlapping_symbols.rs` -/

/-- `Int` is totally ordered, so `partial_cmp` always yields an
ordering; `SymbolMap::order_symbols` reduces to a three-way compare. -/
def order_symbols (a b : Int) : Ordering :=
  if a < b then .lt else if b < a then .gt else .eq

/-- `SymbolMap::order_ranges`: lexicographic by `lowest` ascending and
then by `highest` **descending**. -/
def order_ranges (a b : SymbolRange) : Ordering :=
  match order_symbols a.lowest b.lowest with
  | .eq => order_symbols b.highest a.highest
  | o => o

/-- Insert `x` in a list at position `i` (Rust `Vec::insert`). -/
def listInsertAt {α : Type} : List α → Nat → α → List α
  | l, 0, x => x :: l
  | [], _ + 1, x => [x]
  | y :: ys, i + 1, x => y :: listInsertAt ys i x

/-- The loop of Rust `slice::binary_search_by`, with an explicit
iteration bound.  `f` is applied to `ranges[mid]`; `.lt` moves `left`
past `mid`, `.gt` moves `right` to `mid`, `.eq` returns `Ok(mid)`
(here `Sum.inl mid`); an empty window returns `Err(left)` (here
`Sum.inr left`). -/
def binary_search_go (ranges : List SymbolRange) (f : SymbolRange → Ordering) :
    Nat → Nat → Nat → Sum Nat Nat
  | 0, left, _ => Sum.inr left
  | fuel + 1, left, right =>
    if left < right then
      let mid := left + (right - left) / 2
      match f (ranges.getD mid ⟨0, 0⟩) with
      | .lt => binary_search_go ranges f fuel (mid + 1) right
      | .gt => binary_search_go ranges f fuel left mid
      | .eq => Sum.inl mid
    else Sum.inr left

/-- Rust `Vec::binary_search_by` on a list.  The window shrinks every
iteration, so `length + 1` rounds always reach the exit condition. -/
def binary_search_by (ranges : List SymbolRange) (f : SymbolRange → Ordering) : Sum Nat Nat :=
  binary_search_go ranges f (ranges.length + 1) 0 ranges.length

/-- `SymbolMap::add_range`: binary-insert the range, skipping exact
duplicates (ranges that compare `Equal` under `order_ranges`). -/
def add_range (ranges : List SymbolRange) (range : SymbolRange) : List SymbolRange :=
  match binary_search_by ranges (fun test_range => order_ranges test_range range) with
  | Sum.inl _ => ranges
  | Sum.inr insertion_pos => listInsertAt ranges insertion_pos range

/-- Build a `SymbolMap` from a list of ranges by repeated `add_range`. -/
def symbol_map_of (ranges : List SymbolRange) : List SymbolRange :=
  ranges.foldl add_range []

/-- The forward scan of `SymbolMap::find_overlapping_ranges`: from
`pos`, keep returning ranges while `ranges[pos].lowest <= range.highest`.
`pos` increases every round, so `length + 1` rounds suffice. -/
def scan_overlapping (ranges : List SymbolRange) (range : SymbolRange) :
    Nat → Nat → List SymbolRange
  | 0, _ => []
  | fuel + 1, pos =>
    if pos < ranges.length ∧ (ranges.getD pos ⟨0, 0⟩).lowest ≤ range.highest then
      ranges.getD pos ⟨0, 0⟩ :: scan_overlapping ranges range fuel (pos + 1)
    else []

/-- `SymbolMap::find_overlapping_ranges`: binary search for the query,
step back one slot when the previous range still reaches the query,
then scan forward. -/
def find_overlapping_ranges (ranges : List SymbolRange) (range : SymbolRange) :
    List SymbolRange :=
  let start_pos :=
    match binary_search_by ranges (fun test_range => order_ranges test_range range) with
    | Sum.inl found_position => found_position
    | Sum.inr insert_position => insert_position
  let pos :=
    if 0 < start_pos ∧ (ranges.getD (start_pos - 1) ⟨0, 0⟩).highest ≥ range.lowest then
      start_pos - 1
    else start_pos
  scan_overlapping ranges range (ranges.length + 1) pos

/-- One round of the `to_non_overlapping_map` loop, operating on the
stack exactly as the Rust `Vec` does: the top of the stack is the *last*
list element (`Vec::pop`/`Vec::push` act on the end).  Returns `none`
when the iteration bound is exhausted with work remaining — the Rust
loop genuinely fails to terminate on some inputs. -/
def to_non_overlapping_aux :
    Nat → List SymbolRange → List SymbolRange → Option (List SymbolRange)
  | 0, to_process, result => if to_process.isEmpty then some result else none
  | fuel + 1, to_process, result =>
    match to_process.getLast? with
    | none => some result
    | some might_overlap =>
      let to_process := to_process.dropLast
      match to_process.getLast? with
      | none => to_non_overlapping_aux fuel [] (result ++ [might_overlap])
      | some overlap_with =>
        let to_process := to_process.dropLast
        if ¬ might_overlap.overlaps overlap_with then
          to_non_overlapping_aux fuel (to_process ++ [overlap_with]) (result ++ [might_overlap])
        else if might_overlap = overlap_with then
          to_non_overlapping_aux fuel (to_process ++ [overlap_with]) result
        else if might_overlap.lowest = overlap_with.lowest then
          let smaller_range := overlap_with
          let larger_range := might_overlap
          let without := SymbolRange.new (smaller_range.highest + 1) larger_range.highest
          let to_process := to_process ++ [smaller_range]
          match binary_search_by to_process (fun test_range => order_ranges without test_range) with
          | Sum.inl _ => to_non_overlapping_aux fuel to_process result
          | Sum.inr insertion_pos =>
            to_non_overlapping_aux fuel (listInsertAt to_process insertion_pos without) result
        else
          to_non_overlapping_aux fuel
            (to_process ++ [overlap_with, SymbolRange.new overlap_with.lowest might_overlap.highest])
            (result ++ [SymbolRange.new might_overlap.lowest (overlap_with.lowest - 1)])

/-- The (inclusive) width of a range, clamped at zero. -/
def rangeSize (r : SymbolRange) : Nat := (r.highest + 1 - r.lowest).toNat

/-- Iteration bound used for `to_non_overlapping_map`. -/
def non_overlap_fuel (ranges : List SymbolRange) : Nat :=
  (ranges.map rangeSize).sum + 2 * ranges.length + 8

/-- `SymbolMap::to_non_overlapping_map`.  The stack starts as the sorted
range list reversed (so the lowest-ordered range is popped first). -/
def to_non_overlapping_map (ranges : List SymbolRange) : Option (List SymbolRange) :=
  to_non_overlapping_aux (non_overlap_fuel ranges) ranges.reverse []

/-- Membership of a symbol in the union of a list of ranges. -/
def inUnion (ranges : List SymbolRange) (s : Int) : Bool :=
  ranges.any (·.includes s)

/-- `p` is contained in `r` (as sets of symbols, for well-formed ranges). -/
def containedIn (p r : SymbolRange) : Bool :=
  decide (r.lowest ≤ p.lowest ∧ p.highest ≤ r.highest)

/-! ## The range DFA and its match driver —
`src/symbol_range_dfa.rs`, `src/pattern_matcher.rs`, `src/matches.rs`

Output symbols are `Nat`.  The reader abstraction (`symbol_reader.rs` is
declared in `lib.rs` but its source is not in the snapshot) is a pure
`List Int`: a finite in-order stream of symbols. -/

/-- `SymbolRangeDfa`: per-state slice table into a flat transition
array, plus optional accept symbol per state.  After `build`, `states`
carries the final sentinel entry. -/
structure SymbolRangeDfa where
  states : List Nat
  transitions : List (SymbolRange × Nat)
  accept : List (Option Nat)
deriving DecidableEq, Repr

/-- `SymbolRangeDfaBuilder` (same fields, pre-`build`). -/
structure SymbolRangeDfaBuilder where
  states : List Nat
  transitions : List (SymbolRange × Nat)
  accept : List (Option Nat)
deriving Repr

def builder_new : SymbolRangeDfaBuilder := ⟨[], [], []⟩

/-- `DfaBuilder::start_state` for `SymbolRangeDfaBuilder`. -/
def builder_start_state (b : SymbolRangeDfaBuilder) : SymbolRangeDfaBuilder :=
  { b with states := b.states ++ [b.transitions.length], accept := b.accept ++ [none] }

/-- `DfaBuilder::transition`. -/
def builder_transition (b : SymbolRangeDfaBuilder) (symbol : SymbolRange)
    (target_state : Nat) : SymbolRangeDfaBuilder :=
  { b with transitions := b.transitions ++ [(symbol, target_state)] }

/-- `DfaBuilder::accept`: replaces the last state's accept symbol. -/
def builder_accept (b : SymbolRangeDfaBuilder) (symbol : Nat) : SymbolRangeDfaBuilder :=
  { b with accept := b.accept.dropLast ++ [some symbol] }

/-- `DfaBuilder::build`: cap the state table with the final sentinel. -/
def builder_build (b : SymbolRangeDfaBuilder) : SymbolRangeDfa :=
  ⟨b.states ++ [b.transitions.length], b.transitions, b.accept⟩

/-- The state of a running match: current DFA state, symbols consumed,
and the most recent accepting configuration (`SymbolRangeState`). -/
structure MState where
  state : Nat
  count : Nat
  acceptRec : Option (Nat × Nat)
deriving DecidableEq, Repr

/-- Outcome of a match (`MatchAction` without the `More` case). -/
inductive MatchResult where
  | accept (len : Nat) (out : Nat)
  | reject
deriving DecidableEq, Repr

/-- The edge scan of `SymbolRangeState::next`: the first transition in
the current state's slice whose range includes the symbol. -/
def find_transition (dfa : SymbolRangeDfa) (state : Nat) (symbol : Int) :
    Option (SymbolRange × Nat) :=
  let start_transition := dfa.states.getD state 0
  let end_transition := dfa.states.getD (state + 1) 0
  ((dfa.transitions.drop start_transition).take (end_transition - start_transition)).find?
    (fun t => t.1.includes symbol)

/-- `SymbolRangeState::finish`. -/
def MState.finish (ms : MState) : MatchResult :=
  match ms.acceptRec with
  | some (length, symbol) => .accept length symbol
  | none => .reject

/-- `SymbolRangeState::next`: step on a symbol; a missing transition
finishes the machine immediately. -/
def MState.next (dfa : SymbolRangeDfa) (ms : MState) (symbol : Int) :
    Sum MState MatchResult :=
  match find_transition dfa ms.state symbol with
  | some (_, new_state) =>
    let new_count := ms.count + 1
    let new_accept :=
      match dfa.accept.getD new_state none with
      | some output => some (new_count, output)
      | none => ms.acceptRec
    Sum.inl ⟨new_state, new_count, new_accept⟩
  | none => Sum.inr ms.finish

/-- `SymbolRangeDfa::start`. -/
def SymbolRangeDfa.start (dfa : SymbolRangeDfa) : MState :=
  match dfa.accept.getD 0 none with
  | some output => ⟨0, 0, some (0, output)⟩
  | none => ⟨0, 0, none⟩

/-- `match_pattern`: drive the DFA over the reader until it finishes or
the reader is exhausted. -/
def match_pattern (dfa : SymbolRangeDfa) : MState → List Int → MatchResult
  | ms, [] => ms.finish
  | ms, symbol :: rest =>
    match ms.next dfa symbol with
    | Sum.inl ms2 => match_pattern dfa ms2 rest
    | Sum.inr result => result

/-- `matches_prepared` on a list reader: the length of the longest
matching prefix, if any. -/
def matchesList (dfa : SymbolRangeDfa) (input : List Int) : Option Nat :=
  match match_pattern dfa dfa.start input with
  | .accept count _ => some count
  | .reject => none

/-! ## Claim C2: the match driver is greedy and reports the last accept -/

/-- The pure state run of the DFA: the state reached after consuming a
list of symbols, `none` when the machine gets stuck. -/
def delta_run (dfa : SymbolRangeDfa) : Nat → List Int → Option Nat
  | state, [] => some state
  | state, symbol :: rest =>
    match find_transition dfa state symbol with
    | some (_, new_state) => delta_run dfa new_state rest
    | none => none

/-- `accepts_at dfa input m`: running the DFA on the first `m` symbols
of `input` reaches an accepting configuration exactly at `m` consumed
symbols. -/
def accepts_at (dfa : SymbolRangeDfa) (input : List Int) (m : Nat) : Prop :=
  m ≤ input.length ∧
  ∃ st, delta_run dfa 0 (input.take m) = some st ∧
    (dfa.accept.getD st none).isSome = true

instance (dfa : SymbolRangeDfa) (input : List Int) (m : Nat) :
    Decidable (accepts_at dfa input m) := by
  unfold accepts_at
  rcases delta_run dfa 0 (input.take m) with _ | st
  · exact .isFalse (by rintro ⟨_, st, h, _⟩; simp at h)
  · rcases hacc : (dfa.accept.getD st none).isSome with _ | _
    · exact .isFalse (by rintro ⟨_, st2, h2, hacc2⟩; injection h2 with h3; subst h3; simp_all)
    · exact decidable_of_iff (m ≤ input.length)
        ⟨fun h => ⟨h, st, rfl, hacc⟩, fun ⟨h, _⟩ => h⟩

/-- Invariant carried by the `lastAcceptAt` field of a running match:
it names the most recent accepting configuration among the first `c`
consumed symbols (or asserts that none exists). -/
def AccInv (dfa : SymbolRangeDfa) (input : List Int) (c : Nat) :
    Option (Nat × Nat) → Prop
  | some (l, _) => l ≤ c ∧ accepts_at dfa input l ∧
      ∀ m, m ≤ c → l < m → ¬ accepts_at dfa input m
  | none => ∀ m, m ≤ c → ¬ accepts_at dfa input m

/-- What the final `MatchResult` of the driver means for the input. -/
def MatchResultSpec (dfa : SymbolRangeDfa) (input : List Int) : MatchResult → Prop
  | .accept k _ => accepts_at dfa input k ∧
      ∀ m, m ≤ input.length → k < m → ¬ accepts_at dfa input m
  | .reject => ∀ m, m ≤ input.length → ¬ accepts_at dfa input m

/-! The concrete scenario for C2 (pattern `"abc".repeat_forever(1)`,
input `"abcabcxy"`) is stated as the witness of
`C2_matches_greedy_longest` once the full compilation pipeline is in
place; see `C2_matches_greedy_longest_witness` below. -/

/-! ## The NDFA — `src/ndfa.rs` -/

/-- `Ndfa`: per-state transition lists, the join ("link") lists, and the
output-symbol map.  The output map is an association list with the most
recent insertion in front, the observable behaviour of the source's
`HashMap::insert`/`get`. -/
structure Ndfa where
  max_state : Nat
  transitions : List (List (SymbolRange × Nat))
  joined_with : List (List Nat)
  output_symbols : List (Nat × Nat)
deriving Repr

def Ndfa.new : Ndfa := ⟨0, [], [], []⟩

/-- Extend a list with copies of `x` so that index `n - 1` exists
(the `while len <= i { push }` idiom of the source). -/
def listPad {α : Type} (l : List α) (n : Nat) (x : α) : List α :=
  l ++ List.replicate (n - l.length) x

/-- `StateMachine::count_states` for `Ndfa`. -/
def count_states (m : Ndfa) : Nat := m.max_state + 1

/-- `MutableStateMachine::add_transition`. -/
def add_transition (m : Ndfa) (state : Nat) (for_symbol : SymbolRange)
    (new_state : Nat) : Ndfa :=
  let max2 := max m.max_state (max state new_state)
  let ts := listPad m.transitions (state + 1) []
  { m with
    max_state := max2
    transitions := ts.set state (ts.getD state [] ++ [(for_symbol, new_state)]) }

/-- `MutableStateMachine::create_state`. -/
def create_state (m : Ndfa) (state : Nat) : Ndfa :=
  { m with max_state := max m.max_state state }

/-- `MutableStateMachine::set_output_symbol`. -/
def set_output_symbol (m : Ndfa) (state : Nat) (new_output_symbol : Nat) : Ndfa :=
  { m with
    max_state := max m.max_state state
    output_symbols := (state, new_output_symbol) :: m.output_symbols }

/-- `MutableStateMachine::join_states`. -/
def join_states (m : Ndfa) (first_state second_state : Nat) : Ndfa :=
  let max2 := max m.max_state (max first_state second_state)
  let js := listPad m.joined_with (first_state + 1) []
  { m with
    max_state := max2
    joined_with := js.set first_state (js.getD first_state [] ++ [second_state]) }

/-- The depth-first traversal of `Ndfa::get_join_closure`.  The
traversal visits each state at most once, so the total work is bounded
by the initial stack plus the joined lists of all visited states; the
fuel supplied by `get_join_closure` covers that bound exactly. -/
def closure_aux (joins : Nat → List Nat) : Nat → List Nat → List Nat → List Nat
  | 0, result, _ => result
  | _ + 1, result, [] => result
  | fuel + 1, result, next_state :: stack =>
    if next_state ∈ result then closure_aux joins fuel result stack
    else closure_aux joins fuel (next_state :: result)
      ((joins next_state).reverse ++ stack)

/-- The join targets of a state. -/
def Ndfa.joins (m : Ndfa) (s : Nat) : List Nat := m.joined_with.getD s []

/-- Iteration bound of the closure traversal: one round for the initial
stack entry, plus the joined list of every state that could ever be
pushed. -/
def closure_fuel (m : Ndfa) (state : Nat) : Nat :=
  1 + (((state :: m.joined_with.flatten).dedup).map (fun s => (m.joins s).length)).sum

/-- `Ndfa::get_join_closure` (the source gathers the closure into a
`HashSet`, whose iteration order is unspecified; the embedding fixes the
discovery order of the same traversal). -/
def get_join_closure (m : Ndfa) (state : Nat) : List Nat :=
  closure_aux m.joins (closure_fuel m state) [] [state]

/-- `StateMachine::get_transitions_for_state` for `Ndfa`: own
transitions plus those of every state in the join closure. -/
def get_transitions_for_state (m : Ndfa) (state : Nat) : List (SymbolRange × Nat) :=
  ((get_join_closure m state).map (fun j => m.transitions.getD j [])).flatten

/-- `HashMap::get` on the output map. -/
def lookup_output (l : List (Nat × Nat)) (k : Nat) : Option Nat :=
  (l.find? (fun p => decide (p.1 = k))).map (·.2)

/-- `StateMachine::output_symbol_for_state` for `Ndfa`: own symbol, or
the first symbol found while walking the join closure. -/
def output_symbol_for_state (m : Ndfa) (state : Nat) : Option Nat :=
  match lookup_output m.output_symbols state with
  | some o => some o
  | none => (get_join_closure m state).findSome?
      (fun joined => lookup_output m.output_symbols joined)

/-- `Ndfa::fix_overlapping_ranges`: gather every transition range into a
symbol map, compute the disjoint partition, and replace each transition
by one copy per overlapping partition piece.  `none` when the partition
loop diverges. -/
def Ndfa.fix_overlapping_ranges (m : Ndfa) : Option Ndfa :=
  let symbol_map := (m.transitions.map (fun transit => transit.map (·.1))).flatten.foldl
    add_range []
  match to_non_overlapping_map symbol_map with
  | none => none
  | some no_overlapping =>
    some { m with
      transitions := m.transitions.map (fun transit =>
        transit.flatMap (fun rs =>
          (find_overlapping_ranges no_overlapping rs.1).map (fun r => (r, rs.2)))) }

/-! ## Patterns and their compilation — `src/regular_pattern.rs` -/

/-- `Pattern<Symbol>` over `Int` symbols. -/
inductive Pattern where
  | epsilon : Pattern
  | matchLit : List Int → Pattern
  | matchRange : Int → Int → Pattern
  | repeatInfinite : Nat → Pattern → Pattern
  | repeatBetween : Nat → Nat → Pattern → Pattern
  | matchAll : List Pattern → Pattern
  | matchAny : List Pattern → Pattern
deriving Repr

mutual

/-- Structural size of a pattern, used as the compile fuel. -/
def Pattern.psize : Pattern → Nat
  | .epsilon => 1
  | .matchLit _ => 1
  | .matchRange _ _ => 1
  | .repeatInfinite _ p => p.psize + 1
  | .repeatBetween _ _ p => p.psize + 1
  | .matchAll ps => Pattern.psizeList ps + 1
  | .matchAny ps => Pattern.psizeList ps + 1

def Pattern.psizeList : List Pattern → Nat
  | [] => 1
  | p :: ps => p.psize + Pattern.psizeList ps

end

/-- `Pattern::compile`.  The fuel counts pattern nesting depth only (one
unit per recursive descent into a subpattern), so any fuel at least the
structural size of the pattern — as supplied by `to_ndfa` — reproduces
the source exactly. -/
def Pattern.compile : Nat → Pattern → Ndfa → Nat → Ndfa × Nat
  | 0, _, m, start_state => (m, start_state)
  | fuel + 1, p, m, start_state =>
    match p with
    | .epsilon => (m, start_state)
    | .matchLit symbols =>
      symbols.foldl (fun acc sym =>
        let next_state := count_states acc.1
        (add_transition acc.1 acc.2 (SymbolRange.new sym sym) next_state, next_state))
        (m, start_state)
    | .matchRange first last =>
      let next_state := count_states m
      (add_transition m start_state (SymbolRange.new first last) next_state, next_state)
    | .repeatInfinite count p2 =>
      let target_state := count_states m
      let m1 := create_state m target_state
      let res := (List.range (count + 2)).foldl (fun acc rep =>
        let m2 := if rep ≥ count then join_states acc.1 acc.2 target_state else acc.1
        let initial_state := acc.2
        let r2 := Pattern.compile fuel p2 m2 acc.2
        let m3 := if rep = count + 1 then join_states r2.1 r2.2 initial_state else r2.1
        (m3, r2.2)) (m1, start_state)
      (res.1, target_state)
    | .repeatBetween rstart rend p2 =>
      let target_state := count_states m
      let m1 := create_state m target_state
      let res := (List.range rend).foldl (fun acc rep =>
        let m2 := if rep ≥ rstart then join_states acc.1 acc.2 target_state else acc.1
        Pattern.compile fuel p2 m2 acc.2) (m1, start_state)
      (res.1, target_state)
    | .matchAll patterns =>
      patterns.foldl (fun acc p2 => Pattern.compile fuel p2 acc.1 acc.2) (m, start_state)
    | .matchAny patterns =>
      let target_state := count_states m
      let m1 := create_state m target_state
      let mfinal := patterns.foldl (fun acc p2 =>
        let r := Pattern.compile fuel p2 acc start_state
        join_states r.1 r.2 target_state) m1
      (mfinal, target_state)

/-- `ToNdfa::to_ndfa` for a pattern: compile from state `0`, set the
output symbol on the end state, normalize the ranges. -/
def Pattern.to_ndfa (p : Pattern) (output : Nat) : Option Ndfa :=
  let r := Pattern.compile p.psize p Ndfa.new 0
  (set_output_symbol r.1 r.2 output).fix_overlapping_ranges

/-- `TokenMatcher::to_ndfa`: compile every pattern from state `0`, give
each end state its own output symbol, normalize the ranges. -/
def token_matcher_to_ndfa (patterns : List (Pattern × Nat)) : Option Ndfa :=
  (patterns.foldl (fun m pr =>
    let r := Pattern.compile pr.1.psize pr.1 m 0
    set_output_symbol r.1 r.2 pr.2) Ndfa.new).fix_overlapping_ranges

/-! ## The DFA compiler — `src/dfa_compiler.rs` -/

/-- `DfaState::create`: the source funnels the ids through a `HashSet`;
every call site passes a singleton, for which this is the identity. -/
def dfa_state_create (l : List Nat) : List Nat := l.dedup

/-- `Vec::sort` on state ids (stable insertion sort). -/
def sortNat (l : List Nat) : List Nat := l.insertionSort (· ≤ ·)

/-- `Vec::dedup`: drop *consecutive* duplicates. -/
def dedupAdjacent : List Nat → List Nat
  | [] => []
  | [x] => [x]
  | x :: y :: rest =>
    if x = y then dedupAdjacent (y :: rest) else x :: dedupAdjacent (y :: rest)

/-- `DfaState::dedupe`: sort, then drop adjacent duplicates. -/
def dfa_state_dedupe (l : List Nat) : List Nat := dedupAdjacent (sortNat l)

/-- The `Ord` comparison on `SymbolRange` (lexicographic on
`(lowest, highest)`, the order consistent with its `PartialOrd`),
used by `merge_states` to sort transitions. -/
def range_le (a b : SymbolRange) : Bool :=
  decide (a.lowest < b.lowest ∨ (a.lowest = b.lowest ∧ a.highest ≤ b.highest))

def insertTransSorted (x : SymbolRange × List Nat) :
    List (SymbolRange × List Nat) → List (SymbolRange × List Nat)
  | [] => [x]
  | y :: ys => if range_le x.1 y.1 then x :: y :: ys else y :: insertTransSorted x ys

/-- Merge neighbouring transitions that share the same range symbol by
appending their target-state sets (the `new_transitions` pass). -/
def merge_transitions_aux (cur : SymbolRange × List Nat) :
    List (SymbolRange × List Nat) → List (SymbolRange × List Nat)
  | [] => [cur]
  | y :: rest =>
    if cur.1 = y.1 then merge_transitions_aux (cur.1, cur.2 ++ y.2) rest
    else cur :: merge_transitions_aux y rest

def merge_transitions : List (SymbolRange × List Nat) → List (SymbolRange × List Nat)
  | [] => []
  | x :: rest => merge_transitions_aux x rest

/-- `DfaTransitions::merge_states`: stable-sort by range, merge entries
with identical ranges, sort and deduplicate every target set. -/
def merge_states (transitions : List (SymbolRange × List Nat)) :
    List (SymbolRange × List Nat) :=
  if transitions.isEmpty then transitions
  else (merge_transitions (transitions.foldr insertTransSorted [])).map
    (fun t => (t.1, dfa_state_dedupe t.2))

/-- `DfaTransitions::output_symbol`: sort the collected outputs and take
the first — the minimum under the output ordering. -/
def output_symbol (output : List Nat) : Option Nat :=
  match sortNat output with
  | [] => none
  | x :: _ => some x

/-- The `StateMachine` interface the compiler consumes. -/
structure StateMachineT where
  trans : Nat → List (SymbolRange × Nat)
  out : Nat → Option Nat

def Ndfa.toMachine (m : Ndfa) : StateMachineT :=
  ⟨fun s => get_transitions_for_state m s, fun s => output_symbol_for_state m s⟩

/-- One processed DFA state of the subset construction: the source
subset it was built from, its assigned id, its merged transitions and
its collected output symbols (`DfaTransitions`, with the popped subset
kept alongside). -/
structure DfaStateEntry where
  subset : List Nat
  state_id : Nat
  transitions : List (SymbolRange × List Nat)
  output : List Nat
deriving Repr, DecidableEq

/-- `HashMap` lookup on the known-states map (latest insertion wins). -/
def lookup_known (known : List (List Nat × Nat)) (k : List Nat) : Option Nat :=
  (known.find? (fun p => decide (p.1 = k))).map (·.2)

def contains_known (known : List (List Nat × Nat)) (k : List Nat) : Bool :=
  (lookup_known known k).isSome

/-- The work loop of `DfaCompiler::compile`.  The stack is LIFO with its
top at the head.  A popped subset is processed unconditionally; targets
not yet in the known map are pushed (in transition order, so the last
one ends on top); the subset is entered into the known map only *after*
its targets were examined.  The Rust loop always terminates; the fuel
bounds its iterations and the loop stops as soon as the stack is empty. -/
def dfa_compile_loop (mach : StateMachineT) :
    Nat → List (List Nat × Nat) → List (List Nat) → List DfaStateEntry →
    List DfaStateEntry × List (List Nat × Nat)
  | 0, known, _, states => (states, known)
  | _ + 1, known, [], states => (states, known)
  | fuel + 1, known, state :: to_process, states =>
    let transitions := (state.map (fun s =>
      (mach.trans s).map (fun t => (t.1, dfa_state_create [t.2])))).flatten
    let output := state.filterMap mach.out
    let merged := merge_states transitions
    let entry : DfaStateEntry := ⟨state, states.length, merged, output⟩
    let new_states := (merged.map (·.2)).filter (fun t => ¬ contains_known known t)
    let to_process2 := new_states.foldl (fun st t => t :: st) to_process
    let known2 := (state, entry.state_id) :: known
    dfa_compile_loop mach fuel known2 to_process2 (states ++ [entry])

/-- The emission pass of `DfaCompiler::compile`: feed every processed
state to the builder in discovery order.  On a run that drained its
stack every transition target is in the known map, so the `getD 0`
fallback of the map lookup is never taken. -/
def dfa_emit (entries : List DfaStateEntry) (known : List (List Nat × Nat)) :
    SymbolRangeDfa :=
  builder_build (entries.foldl (fun b e =>
    let b1 := builder_start_state b
    let b2 := match output_symbol e.output with
      | some o => builder_accept b1 o
      | none => b1
    e.transitions.foldl (fun bb t =>
      builder_transition bb t.1 ((lookup_known known t.2).getD 0)) b2)
    builder_new)

/-- `DfaCompiler::build` with an explicit iteration bound. -/
def dfa_compiler_build (mach : StateMachineT) (fuel : Nat) : SymbolRangeDfa :=
  let r := dfa_compile_loop mach fuel [([0], 0)] [[0]] []
  dfa_emit r.1 r.2

/-- `PrepareToMatch` for a built NDFA (`src/prepare.rs`). -/
def prepare_ndfa (m : Ndfa) : SymbolRangeDfa :=
  dfa_compiler_build m.toMachine (2 ^ (count_states m + 2))

/-- `Pattern::prepare_to_match` (output symbol `1` standing for the
Rust `true`). -/
def pattern_prepare (p : Pattern) (output : Nat) : Option SymbolRangeDfa :=
  (p.to_ndfa output).map prepare_ndfa

/-- `TokenMatcher::prepare_to_match`. -/
def token_matcher_prepare (patterns : List (Pattern × Nat)) : Option SymbolRangeDfa :=
  (token_matcher_to_ndfa patterns).map prepare_ndfa

/-! ## The witness of claim C2 (scenario C of the spec) -/

/-- The pattern `"abc".repeat_forever(1)` over character codes. -/
def patternC2 : Pattern := .repeatInfinite 1 (.matchLit [97, 98, 99])

/-- The input `"abcabcxy"` as character codes. -/
def inputC2 : List Int := [97, 98, 99, 97, 98, 99, 120, 121]

/-- The DFA compiled from `patternC2` through the full pipeline. -/
def dfaC2 : SymbolRangeDfa := (pattern_prepare patternC2 1).getD ⟨[], [], []⟩

/-- The two patterns of the tie-break scenario (the unit test
`clashes_producer_lower_tokens`): `a+b ↦ Aaab = 1`, `ab+ ↦ Abbb = 0`,
with `Abbb < Aaab` in the derived output ordering. -/
def patternAaab : Pattern :=
  .matchAll [.repeatInfinite 1 (.matchLit [97]), .matchLit [98]]

def patternAbbb : Pattern :=
  .matchAll [.matchLit [97], .repeatInfinite 1 (.matchLit [98])]

/-! ## Claim C6: duplicate subsets in the subset construction -/

/-- An NDFA on which the compile loop enqueues the subset `{1}` twice:
state 0 steps to `{1}` on `a` and to `{2}` on `b`, and state 2 steps to
`{1}` on `a`.  The stack processes `{2}` before `{1}`, and `{1}` —
already discovered but not yet in the known map — is enqueued again. -/
def ndfaC6 : Ndfa :=
  add_transition (add_transition (add_transition Ndfa.new 0 ⟨97, 97⟩ 1) 0 ⟨98, 98⟩ 2)
    2 ⟨97, 97⟩ 1

/-- The machine invariant carried through the compilation of
`repeat_forever(0)`: state `1` is joined onto state `0` and no output
symbol has been set. -/
def RepeatInv (m : Ndfa) : Prop := 1 ∈ m.joins 0 ∧ m.output_symbols = []

/-- The C9 counterexample body: an alternation of two genuinely
overlapping ranges. -/
def bodyC9 : Pattern := .matchAny [.matchRange 0 4, .matchRange 2 5]

/-- The machine compiled from `bodyC9.repeat_forever(0)`, just before
range normalization (mirrors the interior of `to_ndfa`). -/
def ndfaC9 : Ndfa :=
  let r := Pattern.compile (Pattern.repeatInfinite 0 bodyC9).psize
    (.repeatInfinite 0 bodyC9) Ndfa.new 0
  set_output_symbol r.1 r.2 1

/-- The symbol map gathered inside `fix_overlapping_ranges` for
`ndfaC9` (mirrors its `symbol_map` local). -/
def symbolMapC9 : List SymbolRange :=
  (ndfaC9.transitions.map (fun transit => transit.map (·.1))).flatten.foldl
    add_range []

/-- A preparable witness body for the amended C9 theorem. -/
def bodyC9W : Pattern := .matchLit [97]

/-- The DFA compiled from `bodyC9W.repeat_forever(0)`. -/
def dfaC9W : SymbolRangeDfa :=
  (pattern_prepare (.repeatInfinite 0 bodyC9W) 1).getD ⟨[], [], []⟩

/-! ## The tape and the tokenizer —
`src/tape.rs`, `src/tokenizer.rs`, `src/annotated_stream.rs`

Modelled from the spec: the snapshot's `tape.rs` implements the ring
buffer, but the `symbol_reader.rs` module it is built on and the
`get_source_position` / `at_end_of_reader` accessors that
`tokenizer.rs` calls are missing from `src/`.  The tape is therefore
embedded from the spec's §4.8 description — an absolute source
position, the oldest retained position (`bufferStart`, the spec's
`bufferStartPos`), and the end-of-reader flag — over a pure list
reader, on which replaying from the ring buffer and pulling from the
source coincide.  `tokenizer.rs` and the `from_tokenizer` loop of
`annotated_stream.rs` are embedded from their sources. -/

/-- Modelled from the spec: the tape state of §4.8 over a pure list
reader. -/
structure Tape where
  input : List Int
  sourcePos : Nat
  bufferStart : Nat
  ended : Bool
deriving DecidableEq, Repr

/-- `Tape::new` on a list reader. -/
def Tape.new (input : List Int) : Tape := ⟨input, 0, 0, false⟩

/-- Modelled from the spec: `next()` returns the symbol at the current
position and advances; past the end of the list it signals
end-of-reader. -/
def Tape.next (t : Tape) : Option Int × Tape :=
  match t.input[t.sourcePos]? with
  | some s => (some s, { t with sourcePos := t.sourcePos + 1 })
  | none => (none, { t with ended := true })

/-- Modelled from the spec: `sourcePosition()`. -/
def Tape.sourcePosition (t : Tape) : Nat := t.sourcePos

/-- Modelled from the spec: `atEndOfReader()`. -/
def Tape.at_end_of_reader (t : Tape) : Bool := t.ended

/-- Modelled from the spec: `rewind(n)` moves the position back `n`
symbols; rewinding past `bufferStart` is the fatal programmer error
(`none`). -/
def Tape.rewind (t : Tape) (n : Nat) : Option Tape :=
  if t.bufferStart + n ≤ t.sourcePos then
    some { t with sourcePos := t.sourcePos - n }
  else none

/-- Modelled from the spec: `cut()` forgets the history before the
current position. -/
def Tape.cut (t : Tape) : Tape := { t with bufferStart := t.sourcePos }

/-- The match driver of `matches.rs` reading its symbols from a tape.
Every round either consumes one input symbol or stops, so fuel
`input.length + 1` is ample at every call site. -/
def match_pattern_tape (dfa : SymbolRangeDfa) :
    Nat → MState → Tape → MatchResult × Tape
  | 0, ms, t => (ms.finish, t)
  | fuel + 1, ms, t =>
    match Tape.next t with
    | (some symbol, t2) =>
      match ms.next dfa symbol with
      | Sum.inl ms2 => match_pattern_tape dfa fuel ms2 t2
      | Sum.inr result => (result, t2)
    | (none, t2) => (ms.finish, t2)

/-- `Tokenizer::next_token`: match at the current position, then
rewind and cut according to the result.  A `some` token carries its
source range and output symbol; the outer `none` is the rewind panic,
never reached from a well-formed tape. -/
def next_token (dfa : SymbolRangeDfa) (tape : Tape) :
    Option (Option ((Nat × Nat) × Nat) × Tape) :=
  let start_pos := tape.sourcePosition
  let r := match_pattern_tape dfa (tape.input.length + 1) dfa.start tape
  let end_pos := r.2.sourcePosition
  match r.1 with
  | .accept length outputsymbol =>
    if length > 0 then
      match r.2.rewind (end_pos - start_pos - length) with
      | some t2 => some (some ((start_pos, start_pos + length), outputsymbol), t2.cut)
      | none => none
    else
      match r.2.rewind (end_pos - start_pos) with
      | some t2 => some (none, t2)
      | none => none
  | .reject =>
    match r.2.rewind (end_pos - start_pos) with
    | some t2 => some (none, t2)
    | none => none

/-- The tokenizing loop of `AnnotatedStream::from_tokenizer`: collect
tokens, skipping one input symbol whenever no token is produced and
the reader is not exhausted.  The outer `none` covers fuel exhaustion
and the (unreachable) rewind panic. -/
def from_tokenizer (dfa : SymbolRangeDfa) :
    Nat → Tape → Nat → List ((Nat × Nat) × Nat) →
    Option (List ((Nat × Nat) × Nat))
  | 0, _, _, _ => none
  | fuel + 1, tape, pos, tokens =>
    match next_token dfa tape with
    | none => none
    | some (next_tok, tape2) =>
      let final_pos := tape2.sourcePosition
      match next_tok with
      | some (_, output) =>
        from_tokenizer dfa fuel tape2 final_pos
          (tokens ++ [((pos, final_pos), output)])
      | none =>
        if ¬ tape2.at_end_of_reader then
          from_tokenizer dfa fuel (Tape.next tape2).2 (pos + 1) tokens
        else
          some tokens

/-- The accept record never claims more symbols than were consumed. -/
def AcceptBound (ms : MState) : Prop :=
  ∀ L o, ms.acceptRec = some (L, o) → L ≤ ms.count

/-- The C4 token matcher: digit runs (output `0`) and space runs
(output `1`). -/
def dfaC4 : SymbolRangeDfa :=
  (token_matcher_prepare [(.repeatInfinite 1 (.matchRange 48 57), 0),
    (.repeatInfinite 1 (.matchLit [32]), 1)]).getD ⟨[], [], []⟩

/-- The C4 input `"12 a3"` (the `a` is skipped). -/
def inputC4 : List Int := [49, 50, 32, 97, 51]

/-- The C7 matcher: `"a".repeat_forever(0)`, a nullable pattern. -/
def dfaC7 : SymbolRangeDfa :=
  (pattern_prepare (.repeatInfinite 0 (.matchLit [97])) 1).getD ⟨[], [], []⟩

/-! ## Theorems: the verified properties and the claim theorems -/

/-! ## Claim C1: correctness of `to_non_overlapping_map` (code bug)

The claim states that the partition `P` emitted by
`SymbolMap::to_non_overlapping_map` is pairwise disjoint and sorted,
that `∪P = ∪R`, and that every `r ∈ R` is the disjoint union of the
pieces of `P` contained in it.  The code violates this on the input of
its own unit test `generate_correctly_for_single_overlap`: for the map
`{[0,5], [5,10]}` it terminates with `[[0,4], [5,10], [11,11]]`
(the test asserts `[[0,4], [5,5], [6,10]]`), so the union gains the
symbol `11` and `[0,5]` is not a union of emitted pieces.  (On the
input of the test `can_get_non_overlapping_map`, `{[0,4],[2,5],[3,6]}`,
the loop does not even terminate.) -/

/-- **C1** (code bug): on the symbol map `{[0,5], [5,10]}` — built by
`add_range` exactly as in the unit test — `to_non_overlapping_map`
terminates with `[[0,4], [5,10], [11,11]]`, which differs from the
expectation of the repository's own test, puts the symbol `11` into the
union of the partition although it is not in the union of the input,
and leaves the input range `[0,5]` different from the union of the
emitted pieces contained in it (the symbol `5` is lost). -/
theorem C1_to_non_overlapping_map_wrong_on_test_input :
    symbol_map_of [⟨0, 5⟩, ⟨5, 10⟩] = [⟨0, 5⟩, ⟨5, 10⟩] ∧
    to_non_overlapping_map [⟨0, 5⟩, ⟨5, 10⟩] = some [⟨0, 4⟩, ⟨5, 10⟩, ⟨11, 11⟩] ∧
    to_non_overlapping_map [⟨0, 5⟩, ⟨5, 10⟩] ≠ some [⟨0, 4⟩, ⟨5, 5⟩, ⟨6, 10⟩] ∧
    inUnion [⟨0, 4⟩, ⟨5, 10⟩, ⟨11, 11⟩] 11 = true ∧
    inUnion [⟨0, 5⟩, ⟨5, 10⟩] 11 = false ∧
    inUnion (([⟨0, 4⟩, ⟨5, 10⟩, ⟨11, 11⟩].filter (containedIn · ⟨0, 5⟩))) 5 = false ∧
    inUnion [⟨0, 5⟩] 5 = true := by
  decide

/-! ## Claims C8 and C10: totality of `SymbolRange::new`

`SymbolRange::new(lo, hi)` with `lo > hi` does not fail: it swaps the
endpoints (and the repository's unit test `can_create_range_reversed`
asserts exactly that), contrary to the spec's description of reversed
range construction as a synchronous fatal error. -/

/-- **C8 counterexample**: `SymbolRange::new(5, 1)` does not terminate
the call abruptly; it returns the swapped range `[1, 5]`, exactly as the
repository's own test `can_create_range_reversed` asserts. -/
theorem C8_new_reversed_returns_a_value :
    SymbolRange.new 5 1 = ⟨1, 5⟩ := by decide

/-- **C8 (amended)**: for `lo > hi`, `SymbolRange::new(lo, hi)` is total
and returns the swapped range `{lowest := hi, highest := lo}`; no
synchronous failure occurs. -/
theorem C8_new_reversed_swaps (lo hi : Int) (h : lo > hi) :
    SymbolRange.new lo hi = ⟨hi, lo⟩ := by
  unfold SymbolRange.new
  rw [if_pos h]

/-- **C8 witness**: the amended statement applied at `lo = 7`, `hi = 2`. -/
theorem C8_new_reversed_swaps_witness :
    SymbolRange.new 7 2 = ⟨2, 7⟩ :=
  C8_new_reversed_swaps 7 2 (by decide)

/-- **C10**: `SymbolRange::new` is total: it returns `⟨a, b⟩` when
`a ≤ b` and the swapped range `⟨b, a⟩` otherwise, and the result always
satisfies `lowest ≤ highest`. -/
theorem C10_new_total_and_ordered (a b : Int) :
    SymbolRange.new a b = (if a ≤ b then ⟨a, b⟩ else ⟨b, a⟩) ∧
    (SymbolRange.new a b).lowest ≤ (SymbolRange.new a b).highest := by
  unfold SymbolRange.new
  by_cases h : a > b
  · rw [if_pos h, if_neg (by omega)]
    exact ⟨rfl, by simp; omega⟩
  · rw [if_neg h, if_pos (by omega)]
    exact ⟨rfl, by simp; omega⟩

/-! ## Claim C5: `find_overlapping_ranges` is exact on disjoint sorted maps -/

/-- Unfolding of `overlaps` into arithmetic. -/
theorem overlaps_iff (a b : SymbolRange) :
    a.overlaps b = true ↔ b.lowest ≤ a.highest ∧ a.lowest ≤ b.highest := by
  unfold SymbolRange.overlaps
  split_ifs with h1 h2 <;> constructor <;> intro h <;> first | omega | simp_all

/-- Classification of the comparator used by the symbol-map searches. -/
theorem order_ranges_lt_iff (t q : SymbolRange) :
    order_ranges t q = .lt ↔
      t.lowest < q.lowest ∨ (t.lowest = q.lowest ∧ q.highest < t.highest) := by
  unfold order_ranges order_symbols
  split_ifs with h1 h2 h3 h4 <;> simp <;> omega

/-- Classification of the comparator used by the symbol-map searches. -/
theorem order_ranges_eq_iff (t q : SymbolRange) :
    order_ranges t q = .eq ↔ t.lowest = q.lowest ∧ t.highest = q.highest := by
  unfold order_ranges order_symbols
  split_ifs with h1 h2 h3 h4 <;> simp <;> omega

/-- Specification of the `binary_search_by` loop: on data where the
comparator is monotone, a successful search returns an index comparing
`Equal`, and a failed search returns the partition point between the
`Less` prefix and the rest. -/
theorem binary_search_go_spec (ranges : List SymbolRange) (f : SymbolRange → Ordering)
    (hmono : ∀ i j, i ≤ j → j < ranges.length →
      f (ranges.getD j ⟨0, 0⟩) = .lt → f (ranges.getD i ⟨0, 0⟩) = .lt) :
    ∀ fuel left right, left ≤ right → right ≤ ranges.length → right - left < fuel →
    (∀ i, i < left → f (ranges.getD i ⟨0, 0⟩) = .lt) →
    (∀ i, right ≤ i → i < ranges.length → f (ranges.getD i ⟨0, 0⟩) ≠ .lt) →
    (match binary_search_go ranges f fuel left right with
     | Sum.inl p => p < ranges.length ∧ f (ranges.getD p ⟨0, 0⟩) = .eq
     | Sum.inr p => p ≤ ranges.length ∧
         (∀ i, i < p → f (ranges.getD i ⟨0, 0⟩) = .lt) ∧
         (∀ i, p ≤ i → i < ranges.length → f (ranges.getD i ⟨0, 0⟩) ≠ .lt)) := by
  intro fuel
  induction fuel with
  | zero => intro left right _ _ h; omega
  | succ fuel ih =>
    intro left right hlr hrlen hfuel hlt hge
    rw [show binary_search_go ranges f (fuel + 1) left right =
        (if left < right then
          match f (ranges.getD (left + (right - left) / 2) ⟨0, 0⟩) with
          | .lt => binary_search_go ranges f fuel (left + (right - left) / 2 + 1) right
          | .gt => binary_search_go ranges f fuel left (left + (right - left) / 2)
          | .eq => Sum.inl (left + (right - left) / 2)
        else Sum.inr left) from rfl]
    by_cases hwin : left < right
    · rw [if_pos hwin]
      have hmidlt : left + (right - left) / 2 < right := by
        have := Nat.div_lt_self (n := right - left) (k := 2) (by omega) (by omega)
        omega
      have hmidge : left ≤ left + (right - left) / 2 := by omega
      set mid := left + (right - left) / 2 with hmid
      cases hf : f (ranges.getD mid ⟨0, 0⟩) with
      | lt =>
        exact ih (mid + 1) right (by omega) hrlen (by omega)
          (fun i hi => by
            rcases Nat.lt_or_ge i left with h | h
            · exact hlt i h
            · exact hmono i mid (by omega) (by omega) hf)
          hge
      | eq => exact ⟨by omega, hf⟩
      | gt =>
        exact ih left mid hmidge (by omega) (by omega) hlt
          (fun i hi hilen hcon => by
            have hmm : f (ranges.getD mid ⟨0, 0⟩) = .lt := hmono mid i hi hilen hcon
            rw [hf] at hmm
            exact absurd hmm (by simp))
    · rw [if_neg hwin]
      have : left = right := by omega
      exact ⟨by omega, hlt, fun i hi => hge i (by omega)⟩

/-- The forward scan of `find_overlapping_ranges` is a `takeWhile` on
the tail of the map starting at the scan position. -/
theorem scan_overlapping_eq_takeWhile (ranges : List SymbolRange) (q : SymbolRange) :
    ∀ fuel pos, ranges.length - pos < fuel →
    scan_overlapping ranges q fuel pos =
      (ranges.drop pos).takeWhile (fun r => decide (r.lowest ≤ q.highest)) := by
  intro fuel
  induction fuel with
  | zero => intro pos h; omega
  | succ fuel ih =>
    intro pos hfuel
    unfold scan_overlapping
    by_cases hpos : pos < ranges.length
    · have hdrop := List.drop_eq_getElem_cons (l := ranges) hpos
      have hgd : ranges.getD pos ⟨0, 0⟩ = ranges[pos] := List.getD_eq_getElem ranges _ hpos
      by_cases hcond : (ranges.getD pos ⟨0, 0⟩).lowest ≤ q.highest
      · rw [if_pos ⟨hpos, hcond⟩, hdrop, List.takeWhile_cons,
          if_pos (by rw [← hgd]; exact decide_eq_true hcond), ← hgd]
        exact congrArg _ (ih (pos + 1) (by omega))
      · rw [if_neg (by rintro ⟨_, h⟩; exact hcond h), hdrop, List.takeWhile_cons,
          if_neg (by rw [← hgd]; simpa using hcond)]
    · rw [if_neg (by rintro ⟨h, _⟩; exact hpos h),
        List.drop_eq_nil_iff.mpr (by omega)]
      rfl

/-- `filter` agrees with `takeWhile` when the two predicates agree on
the list and the `takeWhile` predicate never recovers once false. -/
theorem filter_eq_takeWhile_of {α : Type} (pf pt : α → Bool) :
    ∀ l : List α, (∀ x ∈ l, pf x = pt x) →
    List.Pairwise (fun a b => pt b = true → pt a = true) l →
    l.filter pf = l.takeWhile pt
  | [], _, _ => rfl
  | x :: xs, hiff, hpair => by
    rw [List.filter_cons, List.takeWhile_cons]
    by_cases hx : pt x = true
    · rw [if_pos (by rw [hiff x (by simp)]; exact hx), if_pos hx]
      exact congrArg _ (filter_eq_takeWhile_of pf pt xs
        (fun a ha => hiff a (by simp [ha])) (List.pairwise_cons.mp hpair).2)
    · rw [if_neg (by rw [hiff x (by simp)]; exact hx), if_neg hx]
      refine List.filter_eq_nil_iff.mpr ?_
      intro a ha
      rw [hiff a (by simp [ha])]
      intro hpt
      exact hx ((List.pairwise_cons.mp hpair).1 a ha hpt)

/-- **C5**: on a well-formed, sorted, pairwise-disjoint symbol map (the
shape `to_non_overlapping_map` is intended to produce) and a well-formed
query `q`, `find_overlapping_ranges` returns exactly the ranges of the
map that intersect `q`: the binary search plus single-step back-scan
misses no intersecting piece and returns no non-intersecting piece. -/
theorem C5_find_overlapping_ranges_exact (ranges : List SymbolRange) (q : SymbolRange)
    (hwf : ∀ r ∈ ranges, r.lowest ≤ r.highest)
    (hsorted : List.Pairwise (fun a b => a.highest < b.lowest) ranges)
    (hq : q.lowest ≤ q.highest) :
    find_overlapping_ranges ranges q = ranges.filter (fun p => p.overlaps q) := by
  classical
  have hpair : ∀ i j, i < j → (hj : j < ranges.length) →
      (ranges.getD i ⟨0, 0⟩).highest < (ranges.getD j ⟨0, 0⟩).lowest := by
    intro i j hij hj
    rw [List.getD_eq_getElem ranges _ (by omega), List.getD_eq_getElem ranges _ hj]
    exact List.pairwise_iff_getElem.mp hsorted i j (by omega) hj hij
  have hwfd : ∀ i, i < ranges.length →
      (ranges.getD i ⟨0, 0⟩).lowest ≤ (ranges.getD i ⟨0, 0⟩).highest := by
    intro i hi
    rw [List.getD_eq_getElem ranges _ hi]
    exact hwf _ (by simp)
  have hmono : ∀ i j, i ≤ j → j < ranges.length →
      (fun test_range => order_ranges test_range q) (ranges.getD j ⟨0, 0⟩) = .lt →
      (fun test_range => order_ranges test_range q) (ranges.getD i ⟨0, 0⟩) = .lt := by
    intro i j hij hjlen hlt
    simp only at hlt ⊢
    rcases Nat.eq_or_lt_of_le hij with rfl | hij
    · exact hlt
    · rw [order_ranges_lt_iff] at hlt ⊢
      have h1 := hpair i j hij hjlen
      have h2 := hwfd i (by omega)
      left
      omega
  have hspec := binary_search_go_spec ranges (fun test_range => order_ranges test_range q)
    hmono (ranges.length + 1) 0 ranges.length
    (by omega) (by omega) (by omega) (fun i hi => by omega)
    (fun i hi hilen => by omega)
  -- the common kernel of both search outcomes
  have main : ∀ P : Nat,
      (∀ i, i < P → i < ranges.length → ¬ (ranges.getD i ⟨0, 0⟩).overlaps q = true) →
      (∀ i, P ≤ i → i < ranges.length → q.lowest ≤ (ranges.getD i ⟨0, 0⟩).highest) →
      scan_overlapping ranges q (ranges.length + 1) P =
        ranges.filter (fun p => p.overlaps q) := by
    intro P hbefore hafter
    rw [scan_overlapping_eq_takeWhile ranges q (ranges.length + 1) P (by omega)]
    rw [show ranges.filter (fun p => p.overlaps q) =
        (ranges.take P ++ ranges.drop P).filter (fun p => p.overlaps q) by
      rw [List.take_append_drop]]
    rw [List.filter_append]
    rw [show (ranges.take P).filter (fun p => p.overlaps q) = [] from
      List.filter_eq_nil_iff.mpr (by
        intro a ha
        rcases List.mem_take_iff_getElem.mp ha with ⟨i, hm, rfl⟩
        have := hbefore i (by omega) (by omega)
        rw [List.getD_eq_getElem ranges _ (by omega)] at this
        simpa using this)]
    rw [List.nil_append]
    refine (filter_eq_takeWhile_of _ _ (ranges.drop P) ?_ ?_).symm
    · intro x hx
      rcases List.mem_iff_getElem.mp hx with ⟨i, hi, rfl⟩
      have hlen : P + i < ranges.length := by
        have := List.length_drop P ranges
        omega
      have h1 : q.lowest ≤ ((ranges.drop P)[i]).highest := by
        rw [List.getElem_drop]
        have := hafter (P + i) (by omega) hlen
        rw [List.getD_eq_getElem ranges _ hlen] at this
        exact this
      refine Bool.coe_iff_coe.mp ?_
      rw [overlaps_iff, decide_eq_true_eq]
      exact ⟨fun h => h.2, fun h => ⟨h1, h⟩⟩
    · refine List.Pairwise.imp_of_mem ?_
        (List.Pairwise.sublist (List.drop_sublist P ranges) hsorted)
      intro a b ha hb hrel hpt
      have hawf := hwf a (List.mem_of_mem_drop ha)
      simp only [decide_eq_true_eq] at hpt ⊢
      omega
  rcases hsearch : binary_search_by ranges (fun test_range => order_ranges test_range q)
    with p | p
  · -- found an exact match at index p
    have hspec2 : p < ranges.length ∧
        order_ranges (ranges.getD p ⟨0, 0⟩) q = .eq := by
      rw [show binary_search_go ranges (fun test_range => order_ranges test_range q)
          (ranges.length + 1) 0 ranges.length =
          binary_search_by ranges (fun test_range => order_ranges test_range q) from rfl,
        hsearch] at hspec
      exact hspec
    obtain ⟨hplen, hpeq⟩ := hspec2
    rw [order_ranges_eq_iff] at hpeq
    have hback : ¬ (0 < p ∧ (ranges.getD (p - 1) ⟨0, 0⟩).highest ≥ q.lowest) := by
      rintro ⟨hp0, hge⟩
      have := hpair (p - 1) p (by omega) hplen
      omega
    rw [show find_overlapping_ranges ranges q =
        scan_overlapping ranges q (ranges.length + 1)
          (if 0 < p ∧ (ranges.getD (p - 1) ⟨0, 0⟩).highest ≥ q.lowest then p - 1 else p) by
      simp only [find_overlapping_ranges, hsearch]]
    rw [if_neg hback]
    refine main p ?_ ?_
    · intro i hi hilen
      have h1 := hpair i p hi hplen
      rw [overlaps_iff]
      push_neg
      intro h2
      omega
    · intro i hip hilen
      rcases Nat.eq_or_lt_of_le hip with rfl | hip2
      · omega
      · have h1 := hpair p i hip2 hilen
        have h2 := hwfd i hilen
        omega
  · -- not found: p is the partition point
    have hspec2 : p ≤ ranges.length ∧
        (∀ i, i < p → order_ranges (ranges.getD i ⟨0, 0⟩) q = .lt) ∧
        (∀ i, p ≤ i → i < ranges.length →
          order_ranges (ranges.getD i ⟨0, 0⟩) q ≠ .lt) := by
      rw [show binary_search_go ranges (fun test_range => order_ranges test_range q)
          (ranges.length + 1) 0 ranges.length =
          binary_search_by ranges (fun test_range => order_ranges test_range q) from rfl,
        hsearch] at hspec
      exact hspec
    obtain ⟨hplen, hbelow, habove⟩ := hspec2
    have notlt : ∀ i, p ≤ i → i < ranges.length →
        q.lowest ≤ (ranges.getD i ⟨0, 0⟩).lowest := by
      intro i hip hilen
      have h1 : ¬ ((ranges.getD i ⟨0, 0⟩).lowest < q.lowest ∨
          ((ranges.getD i ⟨0, 0⟩).lowest = q.lowest ∧
            q.highest < (ranges.getD i ⟨0, 0⟩).highest)) :=
        fun hcon => habove i hip hilen ((order_ranges_lt_iff _ _).mpr hcon)
      push_neg at h1
      omega
    rw [show find_overlapping_ranges ranges q =
        scan_overlapping ranges q (ranges.length + 1)
          (if 0 < p ∧ (ranges.getD (p - 1) ⟨0, 0⟩).highest ≥ q.lowest then p - 1 else p) by
      simp only [find_overlapping_ranges, hsearch]]
    by_cases hback : 0 < p ∧ (ranges.getD (p - 1) ⟨0, 0⟩).highest ≥ q.lowest
    · rw [if_pos hback]
      have hlt := hbelow (p - 1) (by omega)
      rw [order_ranges_lt_iff] at hlt
      have hlo : (ranges.getD (p - 1) ⟨0, 0⟩).lowest ≤ q.lowest := by omega
      refine main (p - 1) ?_ ?_
      · intro i hi hilen
        have h1 := hpair i (p - 1) hi (by omega)
        rw [overlaps_iff]
        push_neg
        intro h2
        omega
      · intro i hip hilen
        rcases Nat.eq_or_lt_of_le hip with rfl | hip2
        · exact hback.2
        · have := notlt i (by omega) hilen
          have := hwfd i hilen
          omega
    · rw [if_neg hback]
      push_neg at hback
      refine main p ?_ ?_
      · intro i hi hilen
        have hp0 : 0 < p := by omega
        have hple : p - 1 < ranges.length := by omega
        have hprev := hback hp0
        have hwfp := hwfd (p - 1) hple
        rw [overlaps_iff]
        push_neg
        intro h2
        rcases Nat.eq_or_lt_of_le (Nat.le_sub_one_of_lt hi) with rfl | hi2
        · omega
        · have h3 := hpair i (p - 1) (by omega) hple
          omega
      · intro i hip hilen
        have := notlt i hip hilen
        have := hwfd i hilen
        omega

/-- **C5 witness**: the theorem applied at the disjoint sorted partition
`[[0,1],[3,4],[6,8]]` and query `[2,6]`, which overlaps the last two
pieces. -/
theorem C5_find_overlapping_ranges_exact_witness :
    find_overlapping_ranges [⟨0, 1⟩, ⟨3, 4⟩, ⟨6, 8⟩] ⟨2, 6⟩ =
      [⟨0, 1⟩, ⟨3, 4⟩, ⟨6, 8⟩].filter (fun p => p.overlaps ⟨2, 6⟩) :=
  C5_find_overlapping_ranges_exact [⟨0, 1⟩, ⟨3, 4⟩, ⟨6, 8⟩] ⟨2, 6⟩
    (by decide) (by decide) (by decide)

/-- Composition of pure DFA runs. -/
theorem delta_run_append (dfa : SymbolRangeDfa) (l1 l2 : List Int) :
    ∀ s, delta_run dfa s (l1 ++ l2) =
      match delta_run dfa s l1 with
      | some st => delta_run dfa st l2
      | none => none := by
  induction l1 with
  | nil => intro s; rfl
  | cons x xs ih =>
    intro s
    rw [List.cons_append]
    show (match find_transition dfa s x with
      | some (_, t) => delta_run dfa t (xs ++ l2)
      | none => none) =
      (match (match find_transition dfa s x with
        | some (_, t) => delta_run dfa t xs
        | none => none) with
      | some st => delta_run dfa st l2
      | none => none)
    rcases find_transition dfa s x with _ | ⟨_, t⟩
    · rfl
    · exact ih t

theorem matchResultSpec_accept (dfa : SymbolRangeDfa) (input : List Int) (k o : Nat) :
    MatchResultSpec dfa input (.accept k o) =
      (accepts_at dfa input k ∧
        ∀ m, m ≤ input.length → k < m → ¬ accepts_at dfa input m) := rfl

theorem matchResultSpec_reject (dfa : SymbolRangeDfa) (input : List Int) :
    MatchResultSpec dfa input .reject =
      ∀ m, m ≤ input.length → ¬ accepts_at dfa input m := rfl

theorem accInv_some (dfa : SymbolRangeDfa) (input : List Int) (c l o : Nat) :
    AccInv dfa input c (some (l, o)) =
      (l ≤ c ∧ accepts_at dfa input l ∧
        ∀ m, m ≤ c → l < m → ¬ accepts_at dfa input m) := rfl

theorem accInv_none (dfa : SymbolRangeDfa) (input : List Int) (c : Nat) :
    AccInv dfa input c none = ∀ m, m ≤ c → ¬ accepts_at dfa input m := rfl

/-- Main induction for the match driver: from any reachable match state
whose `lastAcceptAt` satisfies the invariant, the driver's result names
the greatest accepted prefix length (or correctly reports none). -/
theorem match_pattern_spec (dfa : SymbolRangeDfa) (input : List Int) :
    ∀ (rest pre : List Int) (ms : MState),
    input = pre ++ rest →
    delta_run dfa 0 pre = some ms.state →
    ms.count = pre.length →
    AccInv dfa input pre.length ms.acceptRec →
    MatchResultSpec dfa input (match_pattern dfa ms rest) := by
  intro rest
  induction rest with
  | nil =>
    intro pre ms hin hrun hcount hinv
    have hlen : input.length = pre.length := by rw [hin]; simp
    show MatchResultSpec dfa input ms.finish
    rcases hacc : ms.acceptRec with _ | ⟨l, o⟩ <;> rw [hacc] at hinv
    · rw [show ms.finish = .reject by unfold MState.finish; rw [hacc]]
      rw [matchResultSpec_reject]
      rw [accInv_none] at hinv
      intro m hm
      exact hinv m (by omega)
    · rw [show ms.finish = .accept l o by unfold MState.finish; rw [hacc]]
      rw [matchResultSpec_accept]
      rw [accInv_some] at hinv
      obtain ⟨hl, haccat, hmax⟩ := hinv
      exact ⟨haccat, fun m hm hlm => hmax m (by omega) hlm⟩
  | cons x rest2 ih =>
    intro pre ms hin hrun hcount hinv
    show MatchResultSpec dfa input
      (match ms.next dfa x with
       | Sum.inl ms2 => match_pattern dfa ms2 rest2
       | Sum.inr result => result)
    rcases htr : find_transition dfa ms.state x with _ | ⟨rg, t⟩
    · -- stuck: the machine finishes here; no prefix beyond `pre` runs
      have hnone : ∀ m, pre.length < m → delta_run dfa 0 (input.take m) = none := by
        intro m hm
        have hsplit : input.take m = pre ++ (x :: rest2).take (m - pre.length) := by
          rw [hin, List.take_append_eq_append_take,
            List.take_of_length_le (by omega)]
        rw [hsplit, delta_run_append, hrun]
        rcases hmp : m - pre.length with _ | n
        · omega
        · show (match find_transition dfa ms.state x with
            | some (_, t2) => delta_run dfa t2 (rest2.take n)
            | none => none) = none
          rw [htr]
      have hfin : ms.next dfa x = Sum.inr ms.finish := by
        unfold MState.next
        rw [htr]
      rw [hfin]
      show MatchResultSpec dfa input ms.finish
      rcases hacc : ms.acceptRec with _ | ⟨l, o⟩ <;> rw [hacc] at hinv
      · rw [show ms.finish = .reject by unfold MState.finish; rw [hacc]]
        rw [matchResultSpec_reject]
        rw [accInv_none] at hinv
        intro m hm
        rcases le_or_lt m pre.length with h | h
        · exact hinv m h
        · rintro ⟨_, st, hdr, _⟩
          rw [hnone m h] at hdr
          exact Option.noConfusion hdr
      · rw [show ms.finish = .accept l o by unfold MState.finish; rw [hacc]]
        rw [matchResultSpec_accept]
        rw [accInv_some] at hinv
        obtain ⟨hl, haccat, hmax⟩ := hinv
        refine ⟨haccat, fun m hm hlm => ?_⟩
        rcases le_or_lt m pre.length with h | h
        · exact hmax m h hlm
        · rintro ⟨_, st, hdr, _⟩
          rw [hnone m h] at hdr
          exact Option.noConfusion hdr
    · -- step to state t
      have hstep : ms.next dfa x = Sum.inl
          ⟨t, ms.count + 1,
            match dfa.accept.getD t none with
            | some output => some (ms.count + 1, output)
            | none => ms.acceptRec⟩ := by
        unfold MState.next
        rw [htr]
      rw [hstep]
      have hprerun : delta_run dfa 0 (pre ++ [x]) = some t := by
        rw [delta_run_append, hrun]
        show (match find_transition dfa ms.state x with
          | some (_, t2) => delta_run dfa t2 []
          | none => none) = some t
        rw [htr]
        rfl
      have htake : input.take (pre.length + 1) = pre ++ [x] := by
        rw [hin, List.take_append_eq_append_take,
          List.take_of_length_le (by omega)]
        rw [show pre.length + 1 - pre.length = 1 by omega]
        rfl
      have hdet : ∀ st, delta_run dfa 0 (input.take (pre.length + 1)) = some st → st = t := by
        intro st h
        rw [htake, hprerun] at h
        exact (Option.some_inj.mp h).symm
      refine ih (pre ++ [x]) _ (by rw [hin]; simp) hprerun (by simp [hcount]) ?_
      show AccInv dfa input (pre ++ [x]).length
        (match dfa.accept.getD t none with
         | some output => some (ms.count + 1, output)
         | none => ms.acceptRec)
      rw [List.length_append, List.length_cons, List.length_nil]
      rcases hout : dfa.accept.getD t none with _ | o
      · -- target not accepting: extend the old invariant by one step
        show AccInv dfa input (pre.length + 0 + 1) ms.acceptRec
        rcases hacc : ms.acceptRec with _ | ⟨l, o2⟩ <;> rw [hacc] at hinv
        · rw [accInv_none] at hinv ⊢
          intro m hm
          rcases le_or_lt m pre.length with h | h
          · exact hinv m h
          · have hmeq : m = pre.length + 1 := by omega
            subst hmeq
            rintro ⟨_, st, hdr, hsome⟩
            rw [hdet st hdr, hout] at hsome
            simp at hsome
        · rw [accInv_some] at hinv ⊢
          obtain ⟨hl, haccat, hmax⟩ := hinv
          refine ⟨by omega, haccat, fun m hm hlm => ?_⟩
          rcases le_or_lt m pre.length with h | h
          · exact hmax m h hlm
          · have hmeq : m = pre.length + 1 := by omega
            subst hmeq
            rintro ⟨_, st, hdr, hsome⟩
            rw [hdet st hdr, hout] at hsome
            simp at hsome
      · -- target accepting: record the new configuration
        show AccInv dfa input (pre.length + 0 + 1) (some (ms.count + 1, o))
        rw [accInv_some, hcount]
        refine ⟨by omega, ?_, fun m hm hlm => by omega⟩
        refine ⟨by rw [hin]; simp, t, by rw [htake]; exact hprerun, ?_⟩
        rw [hout]
        rfl

/-- **C2**: whenever `matches` reports `Some k`, running the DFA on the
first `k` symbols of the stream passes through an accepting
configuration exactly at `k` consumed symbols, and no strictly longer
prefix (up to the stream length) is accepted: the driver is greedy and
falls back to the most recent accepting configuration. -/
theorem C2_matches_greedy_longest (dfa : SymbolRangeDfa) (input : List Int) (k : Nat)
    (h : matchesList dfa input = some k) :
    k ≤ input.length ∧ accepts_at dfa input k ∧
      ∀ m, m ≤ input.length → k < m → ¬ accepts_at dfa input m := by
  have hstate : dfa.start.state = 0 := by
    unfold SymbolRangeDfa.start
    rcases dfa.accept.getD 0 none with _ | o <;> rfl
  have hcount : dfa.start.count = 0 := by
    unfold SymbolRangeDfa.start
    rcases dfa.accept.getD 0 none with _ | o <;> rfl
  have hinv : AccInv dfa input 0 dfa.start.acceptRec := by
    rcases hacc : dfa.accept.getD 0 none with _ | o
    · rw [show dfa.start.acceptRec = none by
        unfold SymbolRangeDfa.start; rw [hacc]]
      rw [accInv_none]
      intro m hm
      have hm0 : m = 0 := by omega
      subst hm0
      rintro ⟨_, st, hdr, hsome⟩
      have hst : st = 0 := (Option.some_inj.mp hdr).symm
      subst hst
      rw [hacc] at hsome
      simp at hsome
    · rw [show dfa.start.acceptRec = some (0, o) by
        unfold SymbolRangeDfa.start; rw [hacc]]
      rw [accInv_some]
      refine ⟨le_refl 0, ⟨by omega, 0, rfl, by rw [hacc]; rfl⟩, fun m hm hlm => by omega⟩
  have hspec := match_pattern_spec dfa input input [] dfa.start rfl
    (by rw [hstate]; rfl) (by rw [hcount]; rfl) (by simpa using hinv)
  unfold matchesList at h
  rcases hres : match_pattern dfa dfa.start input with ⟨l, o⟩ | _ <;> rw [hres] at h hspec
  · have hk : l = k := by injection h
    subst hk
    rw [matchResultSpec_accept] at hspec
    obtain ⟨haccat, hmax⟩ := hspec
    exact ⟨haccat.1, haccat, hmax⟩
  · exact Option.noConfusion h

/-- **C2 witness**: on the compiled `"abc".repeat_forever(1)` and input
`"abcabcxy"`, `matches` yields `Some 6` — not `None` and not `Some 3` —
and the theorem instantiates: position 6 is accepting and no longer
prefix is accepted. -/
theorem C2_matches_greedy_longest_witness :
    (pattern_prepare patternC2 1 = some dfaC2 ∧
      matchesList dfaC2 inputC2 = some 6) ∧
    (6 ≤ inputC2.length ∧ accepts_at dfaC2 inputC2 6 ∧
      ∀ m, m ≤ inputC2.length → 6 < m → ¬ accepts_at dfaC2 inputC2 m) :=
  ⟨by decide, C2_matches_greedy_longest dfaC2 inputC2 6 (by decide)⟩

/-! ## Claim C3: the merged accept symbol is the minimum output -/

/-- `DfaTransitions::output_symbol` returns the least collected output. -/
theorem output_symbol_min (l : List Nat) (h : l ≠ []) :
    ∃ o, output_symbol l = some o ∧ o ∈ l ∧ ∀ x ∈ l, o ≤ x := by
  unfold output_symbol sortNat
  rcases hs : l.insertionSort (· ≤ ·) with _ | ⟨x, rest⟩
  · have hperm := List.perm_insertionSort (· ≤ ·) l
    rw [hs] at hperm
    exact absurd hperm.nil_eq.symm h
  · have hperm := List.perm_insertionSort (· ≤ ·) l
    rw [hs] at hperm
    have hsort := List.sorted_insertionSort (· ≤ ·) l
    rw [hs] at hsort
    refine ⟨x, rfl, hperm.mem_iff.mp (by simp), ?_⟩
    intro y hy
    rcases List.mem_cons.mp (hperm.mem_iff.mpr hy) with rfl | h2
    · exact le_refl y
    · exact List.rel_of_sorted_cons hsort y h2

/-- Every state processed by the compile loop collects exactly the
output symbols of the NDFA states in its subset. -/
theorem dfa_compile_loop_output (mach : StateMachineT) :
    ∀ fuel known stack states entry,
    entry ∈ (dfa_compile_loop mach fuel known stack states).1 →
    entry ∉ states →
    entry.output = entry.subset.filterMap mach.out := by
  intro fuel
  induction fuel with
  | zero => intro known stack states entry hin hnot; exact absurd hin hnot
  | succ fuel ih =>
    intro known stack states entry hin hnot
    rcases stack with _ | ⟨state, rest⟩
    · exact absurd hin hnot
    · by_cases he : entry ∈ states ++
        [(⟨state, states.length,
          merge_states ((state.map (fun s =>
            (mach.trans s).map (fun t => (t.1, dfa_state_create [t.2])))).flatten),
          state.filterMap mach.out⟩ : DfaStateEntry)]
      · rcases List.mem_append.mp he with h1 | h2
        · exact absurd h1 hnot
        · rw [List.mem_singleton.mp h2]
      · exact ih _ _ _ entry hin he

/-- **C3**: when subset construction merges NDFA states into one DFA
state, the collected output list is exactly the output symbols of the
merged NDFA states, and the accept symbol chosen for the DFA state is
the *minimum* of that list under the output ordering. -/
theorem C3_merged_accept_is_minimum :
    (∀ l : List Nat, l ≠ [] → ∃ o, output_symbol l = some o ∧ o ∈ l ∧ ∀ x ∈ l, o ≤ x) ∧
    (∀ (mach : StateMachineT) fuel known stack states entry,
      entry ∈ (dfa_compile_loop mach fuel known stack states).1 →
      entry ∉ states →
      entry.output = entry.subset.filterMap mach.out) :=
  ⟨output_symbol_min, dfa_compile_loop_output⟩

/-- **C3 witness**: the minimum rule applied at the collected output
list `[Aaab, Abbb] = [1, 0]` of the merged accept state of the scenario,
plus the end-to-end runs: the state reached on `"ab"` — a string in both
languages — collects `[1, 0]` and every matching input produces the
lower symbol (`"ab" ↦ 0`, `"abbbb" ↦ 0`), while `"aaab"`, matched only
by the first pattern, produces `1`. -/
theorem C3_merged_accept_is_minimum_witness :
    (∃ o, output_symbol [1, 0] = some o ∧ o ∈ [1, 0] ∧ ∀ x ∈ [1, 0], o ≤ x) ∧
    ((token_matcher_prepare [(patternAaab, 1), (patternAbbb, 0)]).map
      (fun dfa => match_pattern dfa dfa.start [97, 98]) = some (.accept 2 0) ∧
    (token_matcher_prepare [(patternAaab, 1), (patternAbbb, 0)]).map
      (fun dfa => match_pattern dfa dfa.start [97, 98, 98, 98, 98]) = some (.accept 5 0) ∧
    (token_matcher_prepare [(patternAaab, 1), (patternAbbb, 0)]).map
      (fun dfa => match_pattern dfa dfa.start [97, 97, 97, 98]) = some (.accept 4 1)) :=
  ⟨C3_merged_accept_is_minimum.1 [1, 0] (by decide), by decide⟩

/-- **C6 counterexample**: compiling `ndfaC6` processes the subset
listing `[[0], [2], [1], [1]]` — the subset `{1}` is enqueued and
processed twice — and the emitted DFA has four states (five `states`
table entries including the sentinel) although only three distinct
subsets of NDFA states occur. -/
theorem C6_duplicate_subset_emitted :
    ((dfa_compile_loop ndfaC6.toMachine (2 ^ (count_states ndfaC6 + 2))
        [([0], 0)] [[0]] []).1.map (·.subset)) = [[0], [2], [1], [1]] ∧
    ¬ ((dfa_compile_loop ndfaC6.toMachine (2 ^ (count_states ndfaC6 + 2))
        [([0], 0)] [[0]] []).1.map (·.subset)).Nodup ∧
    (prepare_ndfa ndfaC6).states.length = 5 := by
  decide

/-- Membership after pushing a batch of discovered subsets. -/
theorem mem_foldl_cons {α : Type} (l rest : List α) (x : α) :
    x ∈ l.foldl (fun st t => t :: st) rest ↔ x ∈ l ∨ x ∈ rest := by
  induction l generalizing rest with
  | nil => simp
  | cons y ys ih =>
    rw [List.foldl_cons, ih]
    constructor
    · rintro (h | h)
      · exact Or.inl (by simp [h])
      · rcases List.mem_cons.mp h with rfl | h2
        · exact Or.inl (by simp)
        · exact Or.inr h2
    · rintro (h | h)
      · rcases List.mem_cons.mp h with rfl | h2
        · exact Or.inr (by simp)
        · exact Or.inl h2
      · exact Or.inr (by simp [h])

/-- Inserting a binding into the known map preserves known subsets. -/
theorem contains_known_mono (known : List (List Nat × Nat)) (kv : List Nat × Nat)
    (S : List Nat) (h : contains_known known S = true) :
    contains_known (kv :: known) S = true := by
  unfold contains_known lookup_known at h ⊢
  rw [List.find?_cons]
  rcases hdec : decide (kv.1 = S) with _ | _
  · simpa using h
  · simp

/-- **C6 (amended)**: a subset enters the known map only when it is
dequeued and processed, so a subset discovered by several states before
its first processing is enqueued once per discovery and the emitted DFA
can contain more than one state built from the same subset (see the
counterexample); however, once a subset is in the known map and no
pending copy of it remains on the stack, it is never processed again. -/
theorem C6_known_subset_never_reprocessed (mach : StateMachineT) :
    ∀ fuel (known : List (List Nat × Nat)) (stack : List (List Nat))
      (states : List DfaStateEntry) (S : List Nat),
    contains_known known S = true → S ∉ stack →
    ∀ entry ∈ (dfa_compile_loop mach fuel known stack states).1,
      entry ∉ states → entry.subset ≠ S := by
  intro fuel
  induction fuel with
  | zero =>
    intro known stack states S _ _ entry hin hnot
    exact absurd hin hnot
  | succ fuel ih =>
    intro known stack states S hknown hstack entry hin hnot
    rcases stack with _ | ⟨state, rest⟩
    · exact absurd hin hnot
    · by_cases he : entry ∈ states ++
        [(⟨state, states.length,
          merge_states ((state.map (fun s =>
            (mach.trans s).map (fun t => (t.1, dfa_state_create [t.2])))).flatten),
          state.filterMap mach.out⟩ : DfaStateEntry)]
      · rcases List.mem_append.mp he with h1 | h2
        · exact absurd h1 hnot
        · rw [List.mem_singleton.mp h2]
          intro hcon
          exact hstack (by rw [← hcon]; exact List.mem_cons_self _ _)
      · refine ih _ _ _ S (contains_known_mono known _ S hknown) ?_ entry hin he
        rw [mem_foldl_cons]
        rintro (h | h)
        · have hpred := List.of_mem_filter h
          simp only [decide_eq_true_eq] at hpred
          exact hpred hknown
        · exact hstack (List.mem_cons_of_mem _ h)

/-- **C6 witness**: the amended statement applied to `ndfaC6.toMachine`
with the subset `[0]` already known and a stack holding only `[2]`: the
single processed entry is built from `[2]`, not from `[0]`. -/
theorem C6_known_subset_never_reprocessed_witness :
    ((dfa_compile_loop ndfaC6.toMachine 8 [([0], 0)] [[2]] []).1.getD 0
        ⟨[], 0, [], []⟩).subset ≠ [0] :=
  C6_known_subset_never_reprocessed ndfaC6.toMachine 8 [([0], 0)] [[2]] [] [0]
    (by decide) (by decide) _ (by decide) (by decide)

/-! ## Claim C9 experiments -/

/-- Unfolding rule of `closure_aux` on a nonempty stack. -/
theorem closure_aux_cons (joins : Nat → List Nat) (fuel : Nat)
    (result : List Nat) (s : Nat) (rest : List Nat) :
    closure_aux joins (fuel + 1) result (s :: rest) =
      if s ∈ result then closure_aux joins fuel result rest
      else closure_aux joins fuel (s :: result) ((joins s).reverse ++ rest) := rfl

/-- Completeness of the closure traversal: with fuel at least the
stack size plus the total joined-list length of the unvisited part of
any superset `U` of all reachable states, every stack element lands in
the output, and so do the join targets of every unvisited stack
element. -/
theorem closure_aux_complete (joins : Nat → List Nat) (U : Finset Nat)
    (hU : ∀ t, ∀ y ∈ joins t, y ∈ U) :
    ∀ (fuel : Nat) (result stack : List Nat),
    (∀ x ∈ stack, x ∈ U) →
    result.Nodup →
    stack.length +
      ∑ t ∈ U.filter (fun t => t ∉ result), (joins t).length ≤ fuel →
    (∀ x ∈ result, x ∈ closure_aux joins fuel result stack) ∧
    (∀ x ∈ stack, x ∈ closure_aux joins fuel result stack) ∧
    (∀ x ∈ stack, x ∉ result →
      ∀ y ∈ joins x, y ∈ closure_aux joins fuel result stack) := by
  intro fuel
  induction fuel with
  | zero =>
    intro result stack hstackU hnodup hfuel
    have hstack : stack = [] := List.length_eq_zero.mp (by omega)
    subst hstack
    exact ⟨fun x hx => hx, by simp, by simp⟩
  | succ fuel ih =>
    intro result stack hstackU hnodup hfuel
    match stack with
    | [] => exact ⟨fun x hx => hx, by simp, by simp⟩
    | s :: rest =>
      by_cases hs : s ∈ result
      · rw [closure_aux_cons, if_pos hs]
        obtain ⟨h1, h2, h3⟩ := ih result rest
          (fun x hx => hstackU x (List.mem_cons_of_mem _ hx)) hnodup
          (by simp only [List.length_cons] at hfuel; omega)
        refine ⟨h1, ?_, ?_⟩
        · intro x hx
          rcases List.mem_cons.mp hx with rfl | hx2
          · exact h1 x hs
          · exact h2 x hx2
        · intro x hx hxr
          rcases List.mem_cons.mp hx with rfl | hx2
          · exact absurd hs hxr
          · exact h3 x hx2 hxr
      · rw [closure_aux_cons, if_neg hs]
        have hsU : s ∈ U := hstackU s (List.mem_cons_self _ _)
        have hfilter : U.filter (fun t => t ∉ result) =
            insert s (U.filter (fun t => t ∉ s :: result)) := by
          ext t
          simp only [Finset.mem_filter, Finset.mem_insert]
          constructor
          · rintro ⟨htU, htnr⟩
            by_cases hts : t = s
            · exact Or.inl hts
            · refine Or.inr ⟨htU, fun hc => ?_⟩
              rcases List.mem_cons.mp hc with h | h
              · exact hts h
              · exact htnr h
          · rintro (rfl | ⟨htU, htnr⟩)
            · exact ⟨hsU, hs⟩
            · exact ⟨htU, fun hc => htnr (List.mem_cons_of_mem _ hc)⟩
        have hsum : ∑ t ∈ U.filter (fun t => t ∉ result), (joins t).length =
            (joins s).length +
              ∑ t ∈ U.filter (fun t => t ∉ s :: result), (joins t).length := by
          rw [hfilter, Finset.sum_insert]
          simp only [Finset.mem_filter, not_and]
          intro _
          exact fun hc => hc (List.mem_cons_self _ _)
        obtain ⟨h1, h2, h3⟩ := ih (s :: result) ((joins s).reverse ++ rest)
          (fun x hx => by
            rcases List.mem_append.mp hx with hx1 | hx2
            · exact hU s x (List.mem_reverse.mp hx1)
            · exact hstackU x (List.mem_cons_of_mem _ hx2))
          (List.nodup_cons.mpr ⟨hs, hnodup⟩)
          (by
            rw [hsum] at hfuel
            simp only [List.length_append, List.length_reverse,
              List.length_cons] at hfuel ⊢
            omega)
        refine ⟨?_, ?_, ?_⟩
        · intro x hx
          exact h1 x (List.mem_cons_of_mem _ hx)
        · intro x hx
          rcases List.mem_cons.mp hx with rfl | hx2
          · exact h1 x (List.mem_cons_self _ _)
          · exact h2 x (List.mem_append.mpr (Or.inr hx2))
        · intro x hx hxr
          rcases List.mem_cons.mp hx with rfl | hx2
          · intro y hy
            exact h2 y (List.mem_append.mpr (Or.inl (List.mem_reverse.mpr hy)))
          · by_cases hxs : x = s
            · subst hxs
              intro y hy
              exact h2 y (List.mem_append.mpr (Or.inl (List.mem_reverse.mpr hy)))
            · refine h3 x (List.mem_append.mpr (Or.inr hx2)) (fun hc => ?_)
              rcases List.mem_cons.mp hc with h | h
              · exact hxs h
              · exact hxr h

/-- The join closure of a state contains the state and all its direct
join targets. -/
theorem get_join_closure_mem (m : Ndfa) (state : Nat) :
    state ∈ get_join_closure m state ∧
    ∀ y ∈ m.joins state, y ∈ get_join_closure m state := by
  have hU : ∀ t, ∀ y ∈ m.joins t,
      y ∈ ((state :: m.joined_with.flatten).dedup).toFinset := by
    intro t y hy
    rw [List.mem_toFinset, List.mem_dedup]
    refine List.mem_cons_of_mem _ ?_
    unfold Ndfa.joins at hy
    rcases Nat.lt_or_ge t m.joined_with.length with ht | ht
    · rw [List.getD_eq_getElem _ _ ht] at hy
      exact List.mem_flatten.mpr ⟨_, List.getElem_mem ht, hy⟩
    · rw [List.getD_eq_default _ _ ht] at hy
      exact absurd hy (List.not_mem_nil y)
  have hsum : closure_fuel m state =
      1 + ∑ t ∈ ((state :: m.joined_with.flatten).dedup).toFinset,
        (m.joins t).length := by
    unfold closure_fuel
    rw [List.sum_toFinset _ (List.nodup_dedup _)]
  have hfilter : (((state :: m.joined_with.flatten).dedup).toFinset).filter
      (fun t => t ∉ ([] : List Nat)) =
      ((state :: m.joined_with.flatten).dedup).toFinset := by
    apply Finset.filter_true_of_mem
    intro t _
    exact List.not_mem_nil t
  obtain ⟨_, h2, h3⟩ := closure_aux_complete m.joins
    ((state :: m.joined_with.flatten).dedup).toFinset hU
    (closure_fuel m state) [] [state]
    (fun x hx => by
      rcases List.mem_cons.mp hx with rfl | hx2
      · rw [List.mem_toFinset, List.mem_dedup]
        exact List.mem_cons_self _ _
      · exact absurd hx2 (List.not_mem_nil x))
    List.nodup_nil
    (by rw [hsum, hfilter]; simp)
  exact ⟨h2 state (List.mem_cons_self _ _),
    h3 state (List.mem_cons_self _ _) (List.not_mem_nil state)⟩

/-- Invariant preservation through a left fold. -/
theorem foldl_inv {σ γ : Type} (P : σ → Prop) (f : σ → γ → σ)
    (hf : ∀ s x, P s → P (f s x)) :
    ∀ (l : List γ) (s : σ), P s → P (l.foldl f s) := by
  intro l
  induction l with
  | nil => intro s h; exact h
  | cons x xs ih => intro s h; exact ih (f s x) (hf s x h)

/-- `Pattern::compile` touches the machine only through
`add_transition`, `create_state` and `join_states`; any predicate those
three preserve is preserved by compilation. -/
theorem compile_preserves (Q : Ndfa → Prop)
    (hadd : ∀ m s r t, Q m → Q (add_transition m s r t))
    (hcreate : ∀ m s, Q m → Q (create_state m s))
    (hjoin : ∀ m a b, Q m → Q (join_states m a b)) :
    ∀ (fuel : Nat) (p : Pattern) (m : Ndfa) (start : Nat),
      Q m → Q (Pattern.compile fuel p m start).1 := by
  intro fuel
  induction fuel with
  | zero => intro p m start h; exact h
  | succ fuel ih =>
    intro p m start h
    match p with
    | .epsilon => exact h
    | .matchLit symbols =>
      simp only [Pattern.compile]
      refine foldl_inv (fun acc => Q acc.1) _
        (fun acc sym hacc => ?_) symbols (m, start) h
      exact hadd _ _ _ _ hacc
    | .matchRange first last =>
      simp only [Pattern.compile]
      exact hadd _ _ _ _ h
    | .repeatInfinite count p2 =>
      simp only [Pattern.compile]
      refine foldl_inv (fun acc => Q acc.1) _
        (fun acc rep hacc => ?_) _
        (create_state m (count_states m), start) (hcreate _ _ h)
      simp only
      split
      · refine hjoin _ _ _ (ih p2 _ _ ?_)
        split
        · exact hjoin _ _ _ hacc
        · exact hacc
      · refine ih p2 _ _ ?_
        split
        · exact hjoin _ _ _ hacc
        · exact hacc
    | .repeatBetween rstart rend p2 =>
      simp only [Pattern.compile]
      refine foldl_inv (fun acc => Q acc.1) _
        (fun acc rep hacc => ?_) _
        (create_state m (count_states m), start) (hcreate _ _ h)
      simp only
      refine ih p2 _ _ ?_
      split
      · exact hjoin _ _ _ hacc
      · exact hacc
    | .matchAll patterns =>
      simp only [Pattern.compile]
      refine foldl_inv (fun acc => Q acc.1) _
        (fun acc p2 hacc => ?_) patterns (m, start) h
      exact ih p2 _ _ hacc
    | .matchAny patterns =>
      simp only [Pattern.compile]
      refine foldl_inv Q _
        (fun acc p2 hacc => ?_) patterns _ (hcreate _ _ h)
      exact hjoin _ _ _ (ih p2 _ _ hacc)

/-- Padding a list with the default value does not change `getD`. -/
theorem listPad_getD {α : Type} (l : List α) (n : Nat) (x : α) (i : Nat) :
    (listPad l n x).getD i x = l.getD i x := by
  unfold listPad
  rcases Nat.lt_or_ge i l.length with h | h
  · rw [List.getD_eq_getElem?_getD, List.getElem?_append, if_pos h,
      ← List.getD_eq_getElem?_getD]
  · rw [List.getD_eq_getElem?_getD, List.getElem?_append_right h,
      List.getElem?_replicate, List.getD_eq_default _ _ h]
    split
    · rfl
    · rfl

/-- `join_states` only ever extends the joined lists. -/
theorem joins_join_states (m : Ndfa) (a b x s : Nat) (h : x ∈ m.joins s) :
    x ∈ (join_states m a b).joins s := by
  show x ∈ ((listPad m.joined_with (a + 1) []).set a
    ((listPad m.joined_with (a + 1) []).getD a [] ++ [b])).getD s []
  by_cases has : a = s
  · subst has
    have hlen : a < (listPad m.joined_with (a + 1) []).length := by
      unfold listPad
      rw [List.length_append, List.length_replicate]
      omega
    rw [List.getD_eq_getElem?_getD, List.getElem?_set_self hlen]
    rw [listPad_getD]
    exact List.mem_append.mpr (Or.inl h)
  · rw [List.getD_eq_getElem?_getD, List.getElem?_set_ne has,
      ← List.getD_eq_getElem?_getD, listPad_getD]
    exact h

theorem repeatInv_join (m : Ndfa) (a b : Nat) (h : RepeatInv m) :
    RepeatInv (join_states m a b) :=
  ⟨joins_join_states m a b 1 0 h.1, h.2⟩

theorem repeatInv_compile (fuel : Nat) (p : Pattern) (m : Ndfa) (start : Nat)
    (h : RepeatInv m) : RepeatInv (Pattern.compile fuel p m start).1 := by
  refine compile_preserves RepeatInv ?_ ?_ ?_ fuel p m start h
  · intro m s r t hm
    exact hm
  · intro m s hm
    exact hm
  · intro m a b hm
    exact ⟨joins_join_states m a b 1 0 hm.1, hm.2⟩

/-- Compiling `repeat_forever(0) body` from the fresh machine: the end
state is `1`, state `1` is joined onto the start state `0`, and no
output symbol is set. -/
theorem compile_repeat0_facts (body : Pattern) :
    (Pattern.compile (body.psize + 1)
        (.repeatInfinite 0 body) Ndfa.new 0).2 = 1 ∧
    RepeatInv (Pattern.compile (body.psize + 1)
        (.repeatInfinite 0 body) Ndfa.new 0).1 := by
  simp only [Pattern.compile]
  rw [show List.range (0 + 2) = [0, 1] from rfl]
  simp only [List.foldl_cons, List.foldl_nil]
  norm_num
  constructor
  · rfl
  · exact repeatInv_join _ _ _ (repeatInv_compile _ _ _ _
      (repeatInv_join _ _ _ (repeatInv_compile _ _ _ _ ⟨by decide, rfl⟩)))

/-- `fix_overlapping_ranges` rewrites only the transition table. -/
theorem fix_preserves (m nd : Ndfa) (h : m.fix_overlapping_ranges = some nd) :
    nd.joined_with = m.joined_with ∧ nd.output_symbols = m.output_symbols := by
  simp only [Ndfa.fix_overlapping_ranges] at h
  split at h
  · exact absurd h (by simp)
  · injection h with h
    rw [← h]
    exact ⟨rfl, rfl⟩

/-- Through `to_ndfa`, a `repeat_forever(0)` pattern yields a machine
whose end state `1` is joined onto the start state `0` and is the only
state carrying an output symbol. -/
theorem to_ndfa_repeat0 (body : Pattern) (out : Nat) (nd : Ndfa)
    (h : Pattern.to_ndfa (.repeatInfinite 0 body) out = some nd) :
    1 ∈ nd.joins 0 ∧ nd.output_symbols = [(1, out)] := by
  simp only [Pattern.to_ndfa] at h
  rw [show (Pattern.repeatInfinite 0 body).psize = body.psize + 1 from by
    simp [Pattern.psize]] at h
  obtain ⟨h2, hInv⟩ := compile_repeat0_facts body
  rw [h2] at h
  obtain ⟨hjw, hos⟩ := fix_preserves _ _ h
  constructor
  · show 1 ∈ nd.joined_with.getD 0 []
    rw [hjw]
    exact hInv.1
  · rw [hos]
    show (_, out) :: _ = _
    rw [hInv.2]

/-- A state joined onto state `0` with the only output symbol makes
state `0` itself report an output. -/
theorem out0_some (m : Ndfa) (out : Nat)
    (hout : m.output_symbols = [(1, out)]) (hjoin : 1 ∈ m.joins 0) :
    ∃ o, output_symbol_for_state m 0 = some o := by
  have h1 : 1 ∈ get_join_closure m 0 := (get_join_closure_mem m 0).2 1 hjoin
  unfold output_symbol_for_state
  rw [hout]
  rw [show lookup_output [(1, out)] 0 = none from rfl]
  rcases hfs : (get_join_closure m 0).findSome?
      (fun joined => lookup_output [(1, out)] joined) with _ | o
  · exfalso
    have := List.findSome?_eq_none_iff.mp hfs 1 h1
    rw [show lookup_output [(1, out)] 1 = some out from rfl] at this
    exact absurd this (by simp)
  · exact ⟨o, rfl⟩

/-- Unfolding rule of the compile loop on a nonempty stack. -/
theorem dfa_compile_loop_cons (mach : StateMachineT) (fuel : Nat)
    (known : List (List Nat × Nat)) (state : List Nat)
    (to_process : List (List Nat)) (states : List DfaStateEntry) :
    dfa_compile_loop mach (fuel + 1) known (state :: to_process) states =
      dfa_compile_loop mach fuel ((state, states.length) :: known)
        ((((merge_states ((state.map (fun s =>
            (mach.trans s).map (fun t => (t.1, dfa_state_create [t.2])))).flatten)).map
          (·.2)).filter (fun t => ¬ contains_known known t)).foldl
            (fun st t => t :: st) to_process)
        (states ++ [⟨state, states.length,
          merge_states ((state.map (fun s =>
            (mach.trans s).map (fun t => (t.1, dfa_state_create [t.2])))).flatten),
          state.filterMap mach.out⟩]) := rfl

/-- The compile loop only appends to the list of processed states. -/
theorem dfa_compile_loop_appended (mach : StateMachineT) :
    ∀ (fuel : Nat) (known : List (List Nat × Nat))
      (stack : List (List Nat)) (states : List DfaStateEntry),
      ∃ suffix, (dfa_compile_loop mach fuel known stack states).1 =
        states ++ suffix := by
  intro fuel
  induction fuel with
  | zero =>
    intro known stack states
    exact ⟨[], by simp [dfa_compile_loop]⟩
  | succ fuel ih =>
    intro known stack states
    match stack with
    | [] => exact ⟨[], by simp [dfa_compile_loop]⟩
    | state :: rest =>
      rw [dfa_compile_loop_cons]
      obtain ⟨suf, hsuf⟩ := ih ((state, states.length) :: known)
        ((((merge_states ((state.map (fun s =>
            (mach.trans s).map (fun t => (t.1, dfa_state_create [t.2])))).flatten)).map
          (·.2)).filter (fun t => ¬ contains_known known t)).foldl
            (fun st t => t :: st) rest)
        (states ++ [⟨state, states.length,
          merge_states ((state.map (fun s =>
            (mach.trans s).map (fun t => (t.1, dfa_state_create [t.2])))).flatten),
          state.filterMap mach.out⟩])
      exact ⟨[⟨state, states.length,
          merge_states ((state.map (fun s =>
            (mach.trans s).map (fun t => (t.1, dfa_state_create [t.2])))).flatten),
          state.filterMap mach.out⟩] ++ suf,
        by rw [hsuf, List.append_assoc]⟩

/-- Emitting transitions does not touch the accept column. -/
theorem builder_transition_foldl_accept (known : List (List Nat × Nat))
    (ts : List (SymbolRange × List Nat)) :
    ∀ b : SymbolRangeDfaBuilder,
      (ts.foldl (fun bb tr =>
        builder_transition bb tr.1 ((lookup_known known tr.2).getD 0)) b).accept =
        b.accept := by
  induction ts with
  | nil => intro b; rfl
  | cons t ts ih =>
    intro b
    rw [List.foldl_cons]
    exact ih _

/-- One emission step keeps the head of the accept column. -/
theorem emit_step_accept (known : List (List Nat × Nat))
    (b : SymbolRangeDfaBuilder) (e : DfaStateEntry) (o : Nat)
    (t : List (Option Nat)) (hb : b.accept = some o :: t) :
    ∃ t2, (e.transitions.foldl (fun bb tr =>
        builder_transition bb tr.1 ((lookup_known known tr.2).getD 0))
      (match output_symbol e.output with
        | some o2 => builder_accept (builder_start_state b) o2
        | none => builder_start_state b)).accept = some o :: t2 := by
  rw [builder_transition_foldl_accept]
  rcases hos : output_symbol e.output with _ | o2
  · refine ⟨t ++ [none], ?_⟩
    show b.accept ++ [none] = some o :: (t ++ [none])
    rw [hb]
    rfl
  · refine ⟨t ++ [some o2], ?_⟩
    simp only [builder_accept, builder_start_state, List.dropLast_concat, hb]
    rfl

/-- The emission fold keeps the head of the accept column. -/
theorem emit_fold_accept_head (known : List (List Nat × Nat)) (o : Nat) :
    ∀ (entries : List DfaStateEntry) (b : SymbolRangeDfaBuilder)
      (t : List (Option Nat)), b.accept = some o :: t →
      ∃ t2, (entries.foldl (fun b e =>
        let b1 := builder_start_state b
        let b2 := match output_symbol e.output with
          | some o => builder_accept b1 o
          | none => b1
        e.transitions.foldl (fun bb t =>
          builder_transition bb t.1 ((lookup_known known t.2).getD 0)) b2) b).accept =
        some o :: t2 := by
  intro entries
  induction entries with
  | nil =>
    intro b t hb
    exact ⟨t, hb⟩
  | cons e es ih =>
    intro b t hb
    rw [List.foldl_cons]
    obtain ⟨t2, ht2⟩ := emit_step_accept known b e o t hb
    exact ih _ t2 ht2

/-- The first processed state stays at the head of the entry list. -/
theorem dfa_compile_loop_head (mach : StateMachineT) (fuel : Nat)
    (known : List (List Nat × Nat)) (stack : List (List Nat))
    (e : DfaStateEntry) (states : List DfaStateEntry) :
    ∃ es, (dfa_compile_loop mach fuel known stack (e :: states)).1 = e :: es := by
  obtain ⟨suf, hsuf⟩ := dfa_compile_loop_appended mach fuel known stack (e :: states)
  exact ⟨states ++ suf, by rw [hsuf]; rfl⟩

/-- Emission gives the first entry's output symbol to DFA state `0`. -/
theorem dfa_emit_accept_head (known : List (List Nat × Nat))
    (e : DfaStateEntry) (es : List DfaStateEntry) (o : Nat)
    (ho : output_symbol e.output = some o) :
    ∃ t2, (dfa_emit (e :: es) known).accept = some o :: t2 := by
  unfold dfa_emit
  rw [show ∀ bb, (builder_build bb).accept = bb.accept from fun _ => rfl,
    List.foldl_cons]
  refine emit_fold_accept_head known o es _ [] ?_
  show (e.transitions.foldl (fun bb tr =>
      builder_transition bb tr.1 ((lookup_known known tr.2).getD 0))
    (match output_symbol e.output with
      | some o2 => builder_accept (builder_start_state builder_new) o2
      | none => builder_start_state builder_new)).accept = [some o]
  rw [builder_transition_foldl_accept, ho]
  rfl

/-- A machine whose state `0` already reports an output symbol compiles
to a DFA whose state `0` is accepting. -/
theorem dfa_compiler_build_accept0 (mach : StateMachineT) (fuel : Nat)
    (o : Nat) (hout : mach.out 0 = some o) (hfuel : 0 < fuel) :
    ∃ t2, (dfa_compiler_build mach fuel).accept = some o :: t2 := by
  obtain ⟨f, rfl⟩ : ∃ f, fuel = f + 1 :=
    ⟨fuel - 1, by omega⟩
  simp only [dfa_compiler_build]
  rw [dfa_compile_loop_cons, List.nil_append]
  obtain ⟨es, hes⟩ := dfa_compile_loop_head mach f _ _ _ _
  rw [hes]
  refine dfa_emit_accept_head _ _ es o ?_
  show output_symbol (List.filterMap mach.out [0]) = some o
  have h0 : List.filterMap mach.out [0] = [o] := by
    rw [List.filterMap_cons, hout]
    rfl
  rw [h0]
  rfl

/-- An accepting start state makes the empty input match with length 0. -/
theorem matchesList_nil_of_accept0 (dfa : SymbolRangeDfa) (o : Nat)
    (t : List (Option Nat)) (h : dfa.accept = some o :: t) :
    matchesList dfa [] = some 0 := by
  unfold matchesList match_pattern SymbolRangeDfa.start
  rw [h]
  rfl

/-- One round of the partition loop on the cycling stack `A(k) =
[k+1..k+3, k..k+2]` (top at the end): emits `[k,k]` and moves to
`B(k) = [k+1..k+3, k+1..k+2]`. -/
theorem aux_cycle_stepA (fuel : Nat) (k : Int) (res : List SymbolRange) :
    to_non_overlapping_aux (fuel + 1) [⟨k+1, k+3⟩, ⟨k, k+2⟩] res =
      to_non_overlapping_aux fuel [⟨k+1, k+3⟩, ⟨k+1, k+2⟩] (res ++ [⟨k, k⟩]) := by
  simp only [to_non_overlapping_aux, List.getLast?, List.getLast, List.dropLast]
  have hov : SymbolRange.overlaps ⟨k, k+2⟩ ⟨k+1, k+3⟩ = true := by
    unfold SymbolRange.overlaps
    rw [if_neg (by omega : ¬ ((k:Int)+2 < k+1)), if_neg (by omega : ¬ ((k:Int) > k+3))]
  rw [if_neg (by simp [hov]),
    if_neg (fun h => by injection h with h1 h2; omega),
    if_neg (by omega : ¬ ((k:Int) = k+1))]
  simp only [List.nil_append, SymbolRange.new]
  rw [if_neg (by omega : ¬ ((k:Int)+1 > k+2)), if_neg (by omega : ¬ ((k:Int) > k+1-1)),
    (by ring : (k:Int)+1-1 = k)]

/-- The follow-up round on `B(k)`: the same-lowest branch re-inserts the
leftover `[k+2, k+4]` in front, reaching `A(k+1)` with nothing emitted. -/
theorem aux_cycle_stepB (fuel : Nat) (k : Int) (res : List SymbolRange) :
    to_non_overlapping_aux (fuel + 1) [⟨k+1, k+3⟩, ⟨k+1, k+2⟩] res =
      to_non_overlapping_aux fuel [⟨k+2, k+4⟩, ⟨k+1, k+3⟩] res := by
  simp only [to_non_overlapping_aux, List.getLast?, List.getLast, List.dropLast]
  have hov : SymbolRange.overlaps ⟨k+1, k+2⟩ ⟨k+1, k+3⟩ = true := by
    unfold SymbolRange.overlaps
    rw [if_neg (by omega : ¬ ((k:Int)+2 < k+1)), if_neg (by omega : ¬ ((k:Int)+1 > k+3))]
  have hnew : SymbolRange.new (k+3+1) (k+2) = ⟨k+2, k+4⟩ := by
    unfold SymbolRange.new
    rw [if_pos (by omega : (k:Int)+3+1 > k+2), show (k:Int)+3+1 = k+4 from by ring]
  have hcmp : order_ranges ⟨k+2, k+4⟩ ⟨k+1, k+3⟩ = .gt := by
    unfold order_ranges order_symbols
    rw [if_neg (by omega : ¬ ((k:Int)+2 < k+1)), if_pos (by omega : (k:Int)+1 < k+2)]
  have hbs : binary_search_by [⟨k+1, k+3⟩] (fun t => order_ranges ⟨k+2, k+4⟩ t) = Sum.inr 0 := by
    unfold binary_search_by binary_search_go
    simp [hcmp, binary_search_go]
  rw [if_neg (by simp [hov]),
    if_neg (fun h => by injection h with h1 h2; omega),
    if_pos trivial]
  simp only [List.nil_append, hnew, hbs, listInsertAt]

/-- On any stack of the shape `A(k)` the partition loop exhausts every
iteration bound: it diverges. -/
theorem aux_cycle : ∀ (fuel : Nat) (k : Int) (res : List SymbolRange),
    to_non_overlapping_aux fuel [⟨k+1, k+3⟩, ⟨k, k+2⟩] res = none := by
  intro fuel
  induction fuel using Nat.strong_induction_on with
  | _ fuel ih =>
    match fuel with
    | 0 => intro k res; rfl
    | 1 =>
      intro k res
      rw [aux_cycle_stepA]
      rfl
    | n + 2 =>
      intro k res
      rw [show n + 2 = (n + 1) + 1 from rfl, aux_cycle_stepA, aux_cycle_stepB]
      have h := ih n (by omega) (k + 1) (res ++ [⟨k, k⟩])
      rw [show (k:Int) + 1 + 1 = k + 2 from by ring,
        show (k:Int) + 1 + 3 = k + 4 from by ring,
        show (k:Int) + 1 + 2 = k + 3 from by ring] at h
      exact h

/-- From the stack `[2..5, 0..4]` the loop reaches the cycle `A(4)`
after four rounds, and therefore diverges. -/
theorem aux_entry (fuel : Nat) (res : List SymbolRange) :
    to_non_overlapping_aux fuel [⟨2, 5⟩, ⟨0, 4⟩] res = none := by
  match fuel with
  | 0 => rfl
  | 1 => rfl
  | 2 => rfl
  | 3 => rfl
  | n + 4 =>
    have h : to_non_overlapping_aux (n + 4) [⟨2, 5⟩, ⟨0, 4⟩] res =
        to_non_overlapping_aux n [⟨5, 7⟩, ⟨4, 6⟩]
          ((res ++ [⟨0, 1⟩]) ++ [⟨2, 3⟩]) := rfl
    rw [h]
    have h2 := aux_cycle n 4 ((res ++ [⟨0, 1⟩]) ++ [⟨2, 3⟩])
    norm_num at h2
    rw [List.append_assoc]
    exact h2

/-- **C9 counterexample**: the claim fails for the body
`MatchAny [0..4, 2..5]`.  Preparing `repeat_forever(0)` of that body
reports `none` in the embedding; the symbol map collected from the
compiled machine is `{[0,4], [2,5]}`, and on that map's initial stack
the partition loop exhausts *every* iteration bound — the Rust
`prepare_to_match` hangs, so matching the empty stream never returns
`Some(0)` (or anything else). -/
theorem C9_repeat_zero_empty_counterexample :
    pattern_prepare (.repeatInfinite 0 bodyC9) 1 = none ∧
    symbolMapC9 = [⟨0, 4⟩, ⟨2, 5⟩] ∧
    ∀ fuel res, to_non_overlapping_aux fuel symbolMapC9.reverse res = none := by
  refine ⟨by decide, by decide, ?_⟩
  intro fuel res
  rw [show symbolMapC9.reverse = [(⟨2, 5⟩ : SymbolRange), ⟨0, 4⟩] from by decide]
  exact aux_entry fuel res

/-- **C9 (amended)**: for every pattern body `P` whose
`repeat_forever(0)` *can be prepared*, the compiled DFA matches the
empty input with `Some(0)`: compilation joins the accepting end state
`1` onto the start state `0`, the join closure hands state `0` the end
state's output symbol, the subset construction therefore marks DFA
state `0` accepting, and the match driver's `finish` on the empty
stream reports an accept of length 0. -/
theorem C9_repeat_zero_empty_matches (body : Pattern) (out : Nat)
    (dfa : SymbolRangeDfa)
    (h : pattern_prepare (.repeatInfinite 0 body) out = some dfa) :
    matchesList dfa [] = some 0 := by
  unfold pattern_prepare at h
  obtain ⟨nd, hnd, hdfa⟩ := Option.map_eq_some'.mp h
  obtain ⟨hjoin, hout⟩ := to_ndfa_repeat0 body out nd hnd
  obtain ⟨o, ho⟩ := out0_some nd out hout hjoin
  have hmach : nd.toMachine.out 0 = some o := ho
  obtain ⟨t2, ht2⟩ := dfa_compiler_build_accept0 nd.toMachine
    (2 ^ (count_states nd + 2)) o hmach (pow_pos (by norm_num) _)
  subst hdfa
  exact matchesList_nil_of_accept0 _ o t2 ht2

/-- **C9 witness**: `"a".repeat_forever(0)` prepares successfully and
the amended theorem instantiates: the empty input matches with
`Some(0)`. -/
theorem C9_repeat_zero_empty_matches_witness :
    pattern_prepare (.repeatInfinite 0 bodyC9W) 1 = some dfaC9W ∧
    matchesList dfaC9W [] = some 0 :=
  ⟨by decide, C9_repeat_zero_empty_matches bodyC9W 1 dfaC9W (by decide)⟩

theorem acceptBound_start (dfa : SymbolRangeDfa) : AcceptBound dfa.start := by
  intro L o h
  unfold SymbolRangeDfa.start at h
  rcases hg : dfa.accept.getD 0 none with _ | output
  · rw [hg] at h
    exact absurd h (by simp)
  · rw [hg] at h
    injection h with h
    injection h with h1 h2
    omega

theorem mstate_next_inl (dfa : SymbolRangeDfa) (ms : MState) (symbol : Int)
    (ms2 : MState) (h : ms.next dfa symbol = Sum.inl ms2)
    (hb : AcceptBound ms) : AcceptBound ms2 ∧ ms2.count = ms.count + 1 := by
  unfold MState.next at h
  rcases hf : find_transition dfa ms.state symbol with _ | ⟨rg, ns⟩
  · rw [hf] at h
    exact absurd h (by simp)
  · rw [hf] at h
    simp only [] at h
    injection h with h
    subst h
    refine ⟨?_, rfl⟩
    intro L o hL
    show L ≤ ms.count + 1
    rcases hacc : dfa.accept.getD ns none with _ | output
    · rw [hacc] at hL
      have := hb L o hL
      omega
    · rw [hacc] at hL
      injection hL with hL
      injection hL with h1 h2
      omega

theorem mstate_next_inr (dfa : SymbolRangeDfa) (ms : MState) (symbol : Int)
    (result : MatchResult) (h : ms.next dfa symbol = Sum.inr result) :
    result = ms.finish := by
  unfold MState.next at h
  rcases hf : find_transition dfa ms.state symbol with _ | ⟨rg, ns⟩
  · rw [hf] at h
    injection h with h
    exact h.symm
  · rw [hf] at h
    exact absurd h (by simp)

theorem mstate_finish_accept (ms : MState) (L o : Nat)
    (h : ms.finish = .accept L o) (hb : AcceptBound ms) : L ≤ ms.count := by
  unfold MState.finish at h
  rcases ha : ms.acceptRec with _ | ⟨L2, o2⟩
  · rw [ha] at h
    exact absurd h (by simp)
  · rw [ha] at h
    injection h with h1 h2
    rw [← h1]
    exact hb L2 o2 ha

/-- Field bookkeeping of one tape read. -/
theorem tape_next_fields (t : Tape) (os : Option Int) (t2 : Tape)
    (h : Tape.next t = (os, t2)) :
    t2.input = t.input ∧ t2.bufferStart = t.bufferStart ∧
    t.sourcePos ≤ t2.sourcePos ∧ t2.sourcePos ≤ t.sourcePos + 1 ∧
    (os = none → t2.sourcePos = t.sourcePos ∧ t2.ended = true ∧
      t.input.length ≤ t.sourcePos) ∧
    (∀ s, os = some s → t2.sourcePos = t.sourcePos + 1) := by
  unfold Tape.next at h
  rcases hg : t.input[t.sourcePos]? with _ | sym
  · rw [hg] at h
    injection h with h1 h2
    subst h2
    refine ⟨rfl, rfl, le_refl _, Nat.le_succ _, ?_, ?_⟩
    · intro _
      exact ⟨rfl, rfl, List.getElem?_eq_none_iff.mp hg⟩
    · intro s hs
      rw [← h1] at hs
      exact absurd hs (by simp)
  · rw [hg] at h
    injection h with h1 h2
    subst h2
    refine ⟨rfl, rfl, Nat.le_succ _, le_refl _, ?_, ?_⟩
    · intro hn
      rw [← h1] at hn
      exact absurd hn (by simp)
    · intro s _
      rfl

/-- Unfolding rule of the tape driver. -/
theorem match_pattern_tape_succ (dfa : SymbolRangeDfa) (fuel : Nat)
    (ms : MState) (t : Tape) :
    match_pattern_tape dfa (fuel + 1) ms t =
      match Tape.next t with
      | (some symbol, t2) =>
        match ms.next dfa symbol with
        | Sum.inl ms2 => match_pattern_tape dfa fuel ms2 t2
        | Sum.inr result => (result, t2)
      | (none, t2) => (ms.finish, t2) := rfl

/-- Unfolding rule of the list driver on a nonempty reader. -/
theorem match_pattern_cons (dfa : SymbolRangeDfa) (ms : MState)
    (symbol : Int) (rest : List Int) :
    match_pattern dfa ms (symbol :: rest) =
      match ms.next dfa symbol with
      | Sum.inl ms2 => match_pattern dfa ms2 rest
      | Sum.inr result => result := rfl

/-- The tape driver leaves the reader and the retained window alone,
never moves backwards, and an accepted length is bounded by the
consumed symbols. -/
theorem match_pattern_tape_spec (dfa : SymbolRangeDfa) :
    ∀ (fuel : Nat) (ms : MState) (t : Tape),
    (match_pattern_tape dfa fuel ms t).2.input = t.input ∧
    (match_pattern_tape dfa fuel ms t).2.bufferStart = t.bufferStart ∧
    t.sourcePos ≤ (match_pattern_tape dfa fuel ms t).2.sourcePos ∧
    (AcceptBound ms → ∀ L o,
      (match_pattern_tape dfa fuel ms t).1 = .accept L o →
      L ≤ ms.count + ((match_pattern_tape dfa fuel ms t).2.sourcePos - t.sourcePos)) := by
  intro fuel
  induction fuel with
  | zero =>
    intro ms t
    refine ⟨rfl, rfl, le_refl _, ?_⟩
    intro hb L o h
    have := mstate_finish_accept ms L o h hb
    omega
  | succ fuel ih =>
    intro ms t
    rcases hn : Tape.next t with ⟨os, t2⟩
    obtain ⟨hi, hbuf, hle, hub, hnone, hsome⟩ := tape_next_fields t os t2 hn
    rcases os with _ | symbol
    · have hstep : match_pattern_tape dfa (fuel + 1) ms t = (ms.finish, t2) := by
        simp only [match_pattern_tape_succ, hn]
      rw [hstep]
      refine ⟨hi, hbuf, hle, ?_⟩
      intro hb L o h
      have := mstate_finish_accept ms L o h hb
      show L ≤ ms.count + (t2.sourcePos - t.sourcePos)
      omega
    · have ht2 : t2.sourcePos = t.sourcePos + 1 := hsome symbol rfl
      rcases hnx : ms.next dfa symbol with ms2 | result
      · have hstep : match_pattern_tape dfa (fuel + 1) ms t =
            match_pattern_tape dfa fuel ms2 t2 := by
          simp only [match_pattern_tape_succ, hn, hnx]
        rw [hstep]
        obtain ⟨ri, rbuf, rle, racc⟩ := ih ms2 t2
        refine ⟨by rw [ri, hi], by rw [rbuf, hbuf], by omega, ?_⟩
        intro hb L o h
        obtain ⟨hb2, hc2⟩ := mstate_next_inl dfa ms symbol ms2 hnx hb
        have := racc hb2 L o h
        omega
      · have hstep : match_pattern_tape dfa (fuel + 1) ms t = (result, t2) := by
          simp only [match_pattern_tape_succ, hn, hnx]
        rw [hstep]
        refine ⟨hi, hbuf, hle, ?_⟩
        intro hb L o h
        have hres := mstate_next_inr dfa ms symbol result hnx
        have h2 : result = MatchResult.accept L o := h
        rw [hres] at h2
        have := mstate_finish_accept ms L o h2 hb
        show L ≤ ms.count + (t2.sourcePos - t.sourcePos)
        omega

/-- On ample fuel the tape driver computes the same match result as the
list driver run on the unread rest of the input. -/
theorem match_pattern_tape_eq_list (dfa : SymbolRangeDfa) :
    ∀ (fuel : Nat) (ms : MState) (t : Tape),
    t.input.length - t.sourcePos < fuel →
    (match_pattern_tape dfa fuel ms t).1 =
      match_pattern dfa ms (t.input.drop t.sourcePos) := by
  intro fuel
  induction fuel with
  | zero =>
    intro ms t h
    omega
  | succ fuel ih =>
    intro ms t h
    rcases hn : Tape.next t with ⟨os, t2⟩
    obtain ⟨hi, hbuf, hle, hub, hnone, hsome⟩ := tape_next_fields t os t2 hn
    rcases os with _ | symbol
    · have hstep : match_pattern_tape dfa (fuel + 1) ms t = (ms.finish, t2) := by
        simp only [match_pattern_tape_succ, hn]
      rw [hstep]
      obtain ⟨hpos, hend, hlen⟩ := hnone rfl
      rw [List.drop_eq_nil_of_le hlen]
      rfl
    · have hlt : t.sourcePos < t.input.length := by
        by_contra hcon
        have hg2 : t.input[t.sourcePos]? = none :=
          List.getElem?_eq_none_iff.mpr (by omega)
        unfold Tape.next at hn
        rw [hg2] at hn
        injection hn with h1 _
        exact absurd h1.symm (by simp)
      have hsym : t.input[t.sourcePos] = symbol := by
        unfold Tape.next at hn
        rcases hg : t.input[t.sourcePos]? with _ | s
        · rw [hg] at hn
          injection hn with h1 _
          exact absurd h1.symm (by simp)
        · rw [hg] at hn
          injection hn with h1 _
          have hs : s = symbol := by injection h1
          subst hs
          obtain ⟨_, hval⟩ := List.getElem?_eq_some_iff.mp hg
          exact hval
      have ht2 : t2.sourcePos = t.sourcePos + 1 := hsome symbol rfl
      rw [List.drop_eq_getElem_cons hlt, hsym, match_pattern_cons]
      rcases hnx : ms.next dfa symbol with ms2 | result
      · have hstep : match_pattern_tape dfa (fuel + 1) ms t =
            match_pattern_tape dfa fuel ms2 t2 := by
          simp only [match_pattern_tape_succ, hn, hnx]
        rw [hstep]
        simp only [hnx]
        have := ih ms2 t2 (by rw [hi, ht2]; omega)
        rw [this, hi, ht2]
      · have hstep : match_pattern_tape dfa (fuel + 1) ms t = (result, t2) := by
          simp only [match_pattern_tape_succ, hn, hnx]
        rw [hstep]

theorem start_count (dfa : SymbolRangeDfa) : MState.count dfa.start = 0 := by
  unfold SymbolRangeDfa.start
  split
  · rfl
  · rfl

/-- What one `next_token` call does, seen from the outside: it always
returns (no panic); an emitted token starts exactly at the current
position, is nonempty, and leaves the tape just after the token with
its history cut; a `None` answer leaves the tape where it was. -/
theorem next_token_spec (dfa : SymbolRangeDfa) (t : Tape)
    (hwf : t.bufferStart ≤ t.sourcePos) :
    (∃ e, next_token dfa t = some e) ∧
    (∀ rng o2 t2, next_token dfa t = some (some (rng, o2), t2) →
      rng.1 = t.sourcePos ∧ rng.1 < rng.2 ∧ t2.sourcePos = rng.2 ∧
      t2.input = t.input ∧ t2.bufferStart ≤ t2.sourcePos) ∧
    (∀ t2, next_token dfa t = some (none, t2) →
      t2.sourcePos = t.sourcePos ∧ t2.input = t.input ∧
      t2.bufferStart = t.bufferStart) ∧
    (∀ rng o2 t2, next_token dfa t = some (some (rng, o2), t2) →
      ∃ L o3, 0 < L ∧
        (match_pattern_tape dfa (t.input.length + 1) dfa.start t).1 =
          .accept L o3) := by
  obtain ⟨hi, hbuf, hle, haccb⟩ :=
    match_pattern_tape_spec dfa (t.input.length + 1) dfa.start t
  simp only [next_token, Tape.sourcePosition]
  set r := match_pattern_tape dfa (t.input.length + 1) dfa.start t with hr
  rcases hres : r.1 with ⟨L, o⟩ | _
  · have hLb := haccb (acceptBound_start dfa) L o hres
    rw [start_count] at hLb
    by_cases hL : 0 < L
    · have hrw : r.2.rewind (r.2.sourcePos - t.sourcePos - L) =
          some { r.2 with
            sourcePos := r.2.sourcePos - (r.2.sourcePos - t.sourcePos - L) } := by
        unfold Tape.rewind
        rw [if_pos (by omega)]
      simp only [hres, if_pos hL, hrw]
      refine ⟨⟨_, rfl⟩, ?_, ?_, fun rng o2 t2 _ => ⟨L, o, hL, rfl⟩⟩
      · intro rng o2 t2 h
        simp only [Option.some.injEq, Prod.mk.injEq] at h
        obtain ⟨⟨h1, h2⟩, h3⟩ := h
        subst h1
        subst h3
        refine ⟨rfl, by omega, ?_, hi, ?_⟩
        · show r.2.sourcePos - (r.2.sourcePos - t.sourcePos - L) = t.sourcePos + L
          omega
        · show r.2.sourcePos - (r.2.sourcePos - t.sourcePos - L) ≤
            r.2.sourcePos - (r.2.sourcePos - t.sourcePos - L)
          exact le_refl _
      · intro t2 h
        simp only [Option.some.injEq, Prod.mk.injEq] at h
        exact absurd h.1 (by simp)
    · have hrw : r.2.rewind (r.2.sourcePos - t.sourcePos) =
          some { r.2 with
            sourcePos := r.2.sourcePos - (r.2.sourcePos - t.sourcePos) } := by
        unfold Tape.rewind
        rw [if_pos (by omega)]
      simp only [hres, if_neg hL, hrw]
      refine ⟨⟨_, rfl⟩, ?_, ?_, ?_⟩
      · intro rng o2 t2 h
        simp only [Option.some.injEq, Prod.mk.injEq] at h
        exact absurd h.1 (by simp)
      · intro t2 h
        simp only [Option.some.injEq, Prod.mk.injEq] at h
        obtain ⟨_, h3⟩ := h
        subst h3
        refine ⟨?_, hi, hbuf⟩
        show r.2.sourcePos - (r.2.sourcePos - t.sourcePos) = t.sourcePos
        omega
      · intro rng o2 t2 h
        simp only [Option.some.injEq, Prod.mk.injEq] at h
        exact absurd h.1 (by simp)
  · have hrw : r.2.rewind (r.2.sourcePos - t.sourcePos) =
        some { r.2 with
          sourcePos := r.2.sourcePos - (r.2.sourcePos - t.sourcePos) } := by
      unfold Tape.rewind
      rw [if_pos (by omega)]
    simp only [hres, hrw]
    refine ⟨⟨_, rfl⟩, ?_, ?_, ?_⟩
    · intro rng o2 t2 h
      simp only [Option.some.injEq, Prod.mk.injEq] at h
      exact absurd h.1 (by simp)
    · intro t2 h
      simp only [Option.some.injEq, Prod.mk.injEq] at h
      obtain ⟨_, h3⟩ := h
      subst h3
      refine ⟨?_, hi, hbuf⟩
      show r.2.sourcePos - (r.2.sourcePos - t.sourcePos) = t.sourcePos
      omega
    · intro rng o2 t2 h
      simp only [Option.some.injEq, Prod.mk.injEq] at h
      exact absurd h.1 (by simp)

/-- At the end of the reader `next_token` produces no token and marks
the tape ended, without moving it. -/
theorem next_token_atEnd (dfa : SymbolRangeDfa) (t : Tape)
    (hwf : t.bufferStart ≤ t.sourcePos)
    (hend : t.input.length ≤ t.sourcePos) :
    ∃ t2, next_token dfa t = some (none, t2) ∧ t2.sourcePos = t.sourcePos ∧
      t2.input = t.input ∧ t2.ended = true ∧ t2.bufferStart = t.bufferStart := by
  have hn : Tape.next t = (none, { t with ended := true }) := by
    unfold Tape.next
    rw [List.getElem?_eq_none_iff.mpr hend]
  have hstep : match_pattern_tape dfa (t.input.length + 1) dfa.start t =
      (dfa.start.finish, { t with ended := true }) := by
    simp only [match_pattern_tape_succ, hn]
  simp only [next_token, Tape.sourcePosition, hstep]
  rcases hfin : MState.finish dfa.start with ⟨L, o⟩ | _
  · have hL0 : L = 0 := by
      have := mstate_finish_accept dfa.start L o hfin (acceptBound_start dfa)
      rw [start_count] at this
      omega
    subst hL0
    have hrw : Tape.rewind { t with ended := true }
        (t.sourcePos - t.sourcePos) =
        some { t with ended := true, sourcePos := t.sourcePos - (t.sourcePos - t.sourcePos) } := by
      unfold Tape.rewind
      rw [if_pos (by omega : t.bufferStart + (t.sourcePos - t.sourcePos) ≤ t.sourcePos)]
    simp only [hfin, if_neg (by omega : ¬ 0 > 0), hrw]
    exact ⟨_, rfl,
      by show t.sourcePos - (t.sourcePos - t.sourcePos) = t.sourcePos; omega,
      rfl, rfl, rfl⟩
  · have hrw : Tape.rewind { t with ended := true }
        (t.sourcePos - t.sourcePos) =
        some { t with ended := true, sourcePos := t.sourcePos - (t.sourcePos - t.sourcePos) } := by
      unfold Tape.rewind
      rw [if_pos (by omega : t.bufferStart + (t.sourcePos - t.sourcePos) ≤ t.sourcePos)]
    simp only [hfin, hrw]
    exact ⟨_, rfl,
      by show t.sourcePos - (t.sourcePos - t.sourcePos) = t.sourcePos; omega,
      rfl, rfl, rfl⟩

/-- Unfolding rule of the tokenizing loop. -/
theorem from_tokenizer_succ (dfa : SymbolRangeDfa) (fuel : Nat) (tape : Tape)
    (pos : Nat) (tokens : List ((Nat × Nat) × Nat)) :
    from_tokenizer dfa (fuel + 1) tape pos tokens =
      match next_token dfa tape with
      | none => none
      | some (next_tok, tape2) =>
        match next_tok with
        | some (_, output) =>
          from_tokenizer dfa fuel tape2 tape2.sourcePosition
            (tokens ++ [((pos, tape2.sourcePosition), output)])
        | none =>
          if ¬ tape2.at_end_of_reader then
            from_tokenizer dfa fuel (Tape.next tape2).2 (pos + 1) tokens
          else some tokens := rfl

/-- Every completed run of the tokenizing loop appends only tokens
that are nonempty, start at or after the running position, and are
separated: each one ends before the next begins. -/
theorem from_tokenizer_spec (dfa : SymbolRangeDfa) :
    ∀ (fuel : Nat) (t : Tape) (pos : Nat)
      (tokens out : List ((Nat × Nat) × Nat)),
    t.bufferStart ≤ t.sourcePos →
    (pos = t.sourcePos ∨ t.input.length ≤ t.sourcePos) →
    from_tokenizer dfa fuel t pos tokens = some out →
    ∃ suffix, out = tokens ++ suffix ∧
      (∀ tok ∈ suffix, pos ≤ tok.1.1 ∧ tok.1.1 < tok.1.2) ∧
      List.Pairwise (fun a b => a.1.2 ≤ b.1.1) suffix := by
  intro fuel
  induction fuel with
  | zero =>
    intro t pos tokens out hwf hinv h
    exact absurd h (by simp [from_tokenizer])
  | succ fuel ih =>
    intro t pos tokens out hwf hinv h
    rw [from_tokenizer_succ] at h
    obtain ⟨hex, hemit, hnone, hdrv⟩ := next_token_spec dfa t hwf
    rcases hnt : next_token dfa t with _ | ⟨ntok, tape2⟩
    · rw [hnt] at h
      exact absurd h (by simp)
    · rw [hnt] at h
      simp only [] at h
      rcases ntok with _ | ⟨rng, output⟩
      · obtain ⟨hpos2, hi2, hbuf2⟩ := hnone tape2 hnt
        by_cases hend : tape2.at_end_of_reader = true
        · rw [if_neg (fun hc => hc hend)] at h
          injection h with h
          refine ⟨[], by rw [← h, List.append_nil], by simp, List.Pairwise.nil⟩
        · rw [if_pos hend] at h
          rcases hn3 : Tape.next tape2 with ⟨os3, tape3⟩
          rw [hn3] at h
          obtain ⟨hi3, hbuf3, hle3, hub3, hnone3, hsome3⟩ :=
            tape_next_fields tape2 os3 tape3 hn3
          have hwf3 : tape3.bufferStart ≤ tape3.sourcePos := by omega
          have hinv3 : pos + 1 = tape3.sourcePos ∨
              tape3.input.length ≤ tape3.sourcePos := by
            rcases os3 with _ | s3
            · obtain ⟨hp3, he3, hl3⟩ := hnone3 rfl
              right
              rw [hi3, hp3]
              omega
            · left
              rw [hsome3 s3 rfl]
              rcases hinv with hA | hB
              · omega
              · exfalso
                have hg3 : tape2.input[tape2.sourcePos]? = none := by
                  apply List.getElem?_eq_none_iff.mpr
                  rw [hi2, hpos2]
                  exact hB
                unfold Tape.next at hn3
                rw [hg3] at hn3
                injection hn3 with h1 _
                exact absurd h1.symm (by simp)
          obtain ⟨suffix, hout, hall, hpair⟩ :=
            ih tape3 (pos + 1) tokens out hwf3 hinv3 h
          refine ⟨suffix, hout, ?_, hpair⟩
          intro tok htok
          have := hall tok htok
          exact ⟨by omega, this.2⟩
      · obtain ⟨h1, h2, h3, h4, h5⟩ := hemit rng output tape2 hnt
        have hA : pos = t.sourcePos := by
          rcases hinv with hA | hB
          · exact hA
          · exfalso
            obtain ⟨t2x, hntx, _⟩ := next_token_atEnd dfa t hwf hB
            rw [hnt] at hntx
            simp at hntx
        simp only [Tape.sourcePosition] at h
        obtain ⟨suffix, hout, hall, hpair⟩ := ih tape2 tape2.sourcePos
          (tokens ++ [((pos, tape2.sourcePos), output)]) out h5 (Or.inl rfl) h
        refine ⟨((pos, tape2.sourcePos), output) :: suffix, ?_, ?_, ?_⟩
        · rw [hout, List.append_assoc]
          rfl
        · intro tok htok
          rcases List.mem_cons.mp htok with rfl | htok2
          · exact ⟨le_refl _, by show pos < tape2.sourcePos; omega⟩
          · have := hall tok htok2
            exact ⟨by omega, this.2⟩
        · refine List.pairwise_cons.mpr ⟨?_, hpair⟩
          intro tok htok
          have := hall tok htok
          show tape2.sourcePos ≤ tok.1.1
          exact this.1

/-- **C4**: every completed tokenizing run emits tokens that are
nonempty, pairwise non-overlapping — each one ends at or before the
next begins — and in strictly ascending start order; the gaps are the
skipped positions. -/
theorem C4_tokens_ordered (dfa : SymbolRangeDfa) (input : List Int)
    (fuel : Nat) (tokens : List ((Nat × Nat) × Nat))
    (h : from_tokenizer dfa fuel (Tape.new input) 0 [] = some tokens) :
    (∀ tok ∈ tokens, tok.1.1 < tok.1.2) ∧
    List.Pairwise (fun a b => a.1.2 ≤ b.1.1 ∧ a.1.1 < b.1.1) tokens := by
  obtain ⟨suffix, hout, hall, hpair⟩ := from_tokenizer_spec dfa fuel
    (Tape.new input) 0 [] tokens (le_refl 0) (Or.inl rfl) h
  rw [List.nil_append] at hout
  subst hout
  refine ⟨fun tok htok => (hall tok htok).2, ?_⟩
  refine List.Pairwise.imp_of_mem ?_ hpair
  intro a b ha hb hR
  exact ⟨hR, lt_of_lt_of_le (hall a ha).2 hR⟩

/-- **C4 witness**: tokenizing `"12 a3"` with the digit/space matcher
emits `[0..2, 2..3, 4..5]` — ascending, non-overlapping, with position
3 skipped — and the theorem instantiates on that run. -/
theorem C4_tokens_ordered_witness :
    from_tokenizer dfaC4 16 (Tape.new inputC4) 0 [] =
      some [((0, 2), 0), ((2, 3), 1), ((4, 5), 0)] ∧
    ((∀ tok ∈ [((0, 2), 0), ((2, 3), 1), ((4, 5), 0)], tok.1.1 < tok.1.2) ∧
      List.Pairwise (fun a b => a.1.2 ≤ b.1.1 ∧ a.1.1 < b.1.1)
        [((0, 2), 0), ((2, 3), 1), ((4, 5), 0)]) :=
  ⟨by decide, C4_tokens_ordered dfaC4 inputC4 16 _ (by decide)⟩

/-- **C7**: when the longest match at the current position has length
zero, `next_token` emits no token and rewinds the tape to where it
started, while the underlying `matches` on the same residual input
still reports `Some(0)`. -/
theorem C7_zero_length_match_demoted (dfa : SymbolRangeDfa) (t : Tape)
    (hwf : t.bufferStart ≤ t.sourcePos)
    (hmatch : matchesList dfa (t.input.drop t.sourcePos) = some 0) :
    ∃ t2, next_token dfa t = some (none, t2) ∧
      t2.sourcePos = t.sourcePos ∧ t2.input = t.input ∧
      matchesList dfa (t2.input.drop t2.sourcePos) = some 0 := by
  obtain ⟨hex, hemit, hnone, hdrv⟩ := next_token_spec dfa t hwf
  obtain ⟨e, he⟩ := hex
  rcases e with ⟨ntok, t2⟩
  rcases ntok with _ | ⟨rng, o2⟩
  · obtain ⟨hpos2, hi2, _⟩ := hnone t2 he
    refine ⟨t2, he, hpos2, hi2, ?_⟩
    rw [hi2, hpos2]
    exact hmatch
  · exfalso
    obtain ⟨L, o3, hL, hres⟩ := hdrv rng o2 t2 he
    have hcorr := match_pattern_tape_eq_list dfa (t.input.length + 1)
      dfa.start t (by omega)
    rw [hres] at hcorr
    unfold matchesList at hmatch
    rw [← hcorr] at hmatch
    have hL0 : L = 0 := by injection hmatch
    omega

/-- **C7 witness**: on input `"b"` the nullable matcher's longest match
at position 0 has length 0; the theorem instantiates: no token is
emitted, the tape stays at position 0, and `matches` still reports
`Some(0)`. -/
theorem C7_zero_length_match_demoted_witness :
    ((Tape.new [98]).bufferStart ≤ (Tape.new [98]).sourcePos ∧
      matchesList dfaC7 ((Tape.new [98]).input.drop (Tape.new [98]).sourcePos) =
        some 0) ∧
    ∃ t2, next_token dfaC7 (Tape.new [98]) = some (none, t2) ∧
      t2.sourcePos = (Tape.new [98]).sourcePos ∧
      t2.input = (Tape.new [98]).input ∧
      matchesList dfaC7 (t2.input.drop t2.sourcePos) = some 0 :=
  ⟨⟨by decide, by decide⟩,
    C7_zero_length_match_demoted dfaC7 (Tape.new [98]) (by decide) (by decide)⟩

end Concordance
